import Mathlib

/-!
Verification development for the mdast→HTML compiler of `lib/compilers.js`
(remark-html).  The compiler proper (the visitor table and every visitor
function) is embedded from the source.  The small external collaborators
that the source requires but that are not part of the compiler file —
the element builder `h.js`, the escape/whitespace/URI utilities of
`util.js` and the packages `trim`/`detab`, and the dispatch error of the
driver — are modelled from the specification's description of them
(§6 External interfaces, §4.3 Tree walker), and each such definition says
so in its doc comment.
-/

set_option maxHeartbeats 4000000
set_option maxRecDepth 4096

namespace RH

/-- Blank characters in the sense of the `[ \t]` character class used by the
line-boundary trimming utility. -/
def isBlankChar (c : Char) : Bool :=
  c = ' ' || c = '\t'

/-- Whitespace in the sense of the `trim` collaborator (ASCII whitespace:
space, tab, newline, carriage return). -/
def isWsChar (c : Char) : Bool :=
  c = ' ' || c = '\t' || c = '\n' || c = '\r'

/-- Modelled from the spec: the `trim.left` collaborator — strip leading
whitespace (used by the walker's break-trim rule). -/
def trimLeft (s : String) : String :=
  ⟨s.data.dropWhile isWsChar⟩

/-- Strip trailing whitespace. -/
def trimRight (s : String) : String :=
  ⟨(s.data.reverse.dropWhile isWsChar).reverse⟩

/-- Modelled from the spec: the `trim` collaborator — full trim of leading
and trailing whitespace (used by the paragraph compiler). -/
def trim (s : String) : String :=
  trimLeft (trimRight s)

/-- Strip leading blanks (spaces/tabs) from a character list. -/
def lstripBlank (l : List Char) : List Char :=
  l.dropWhile isBlankChar

/-- Strip trailing blanks (spaces/tabs) from a character list. -/
def rstripBlank (l : List Char) : List Char :=
  (l.reverse.dropWhile isBlankChar).reverse

/-- Interior/last lines of the line-boundary trim: every line is stripped
on its left edge; all but the last also on the right edge. -/
def trimLinesCore : List (List Char) → List (List Char)
  | [] => []
  | [l] => [lstripBlank l]
  | l :: ls => lstripBlank (rstripBlank l) :: trimLinesCore ls

/-- Modelled from the spec: `util.trimLines`, the line-boundary-only trim —
spaces and tabs adjacent to a line break are stripped, the outer edges of
the whole string are left alone, and a string without a line break is
returned unchanged (no full trim, no collapsing of runs away from line
breaks). -/
def trimLines (s : String) : String :=
  match s.data.splitOn '\n' with
  | [] => s
  | [_] => s
  | l :: ls =>
    ⟨(List.intersperse ['\n'] (rstripBlank l :: trimLinesCore ls)).flatten⟩

/-- One step of whitespace-run collapsing; the flag records whether the
previous character was whitespace. -/
def collapseGo : Bool → List Char → List Char
  | _, [] => []
  | prevWs, c :: rest =>
    if isWsChar c then
      (if prevWs then [] else [' ']) ++ collapseGo true rest
    else
      c :: collapseGo false rest

/-- Modelled from the spec: `util.collapse` — every run of whitespace
(including leading/trailing) becomes a single space. -/
def collapse (s : String) : String :=
  ⟨collapseGo false s.data⟩

/-- Tab expansion at a given column, tab stops every four columns. -/
def detabGo (col : Nat) : List Char → List Char
  | [] => []
  | c :: rest =>
    if c = '\n' then c :: detabGo 0 rest
    else if c = '\t' then
      List.replicate (4 - col % 4) ' ' ++ detabGo (col + (4 - col % 4)) rest
    else c :: detabGo (col + 1) rest

/-- Modelled from the spec: the `detab` collaborator — tab expansion to a
fixed tab width (four columns), resetting at line breaks. -/
def detab (s : String) : String :=
  ⟨detabGo 0 s.data⟩

/-- Replacement for one character under the reserved-character encoder. -/
def encodeChar (c : Char) : List Char :=
  if c = '&' then '&' :: 'a' :: 'm' :: 'p' :: [';']
  else if c = '<' then '&' :: 'l' :: 't' :: [';']
  else if c = '>' then '&' :: 'g' :: 't' :: [';']
  else if c = '"' then '&' :: 'q' :: 'u' :: 'o' :: 't' :: [';']
  else [c]

/-- Modelled from the spec: the Encoder collaborator (`self.encode`) —
escapes the markup-reserved characters for text and attribute contexts. -/
def encode (s : String) : String :=
  ⟨s.data.foldr (fun c acc => encodeChar c ++ acc) []⟩

/-- Modelled from the spec: the URI-normalizer collaborator
(`util.normalizeURI`).  The spec fixes no algorithm for it, so it is
modelled as passing the URI through unchanged; all theorems depend only on
it being a pure function that maps the empty string to itself. -/
def normalizeURI (uri : String) : String :=
  uri

/-- Decimal digit character, as produced by the JavaScript `String(number)`
conversion used for footnote identifiers. -/
def decDigit : Nat → Char
  | 0 => '0'
  | 1 => '1'
  | 2 => '2'
  | 3 => '3'
  | 4 => '4'
  | 5 => '5'
  | 6 => '6'
  | 7 => '7'
  | 8 => '8'
  | _ => '9'

/-- Little-endian decimal digits of `n`, computed with explicit fuel so the
definition is structural (any fuel `≥ n` gives the exact digits). -/
def digitsRevFuel : Nat → Nat → List Nat
  | 0, _ => []
  | f + 1, n => if n = 0 then [] else n % 10 :: digitsRevFuel f (n / 10)

/-- Decimal string form of a natural number, as JavaScript `String(n)`. -/
def natToString (n : Nat) : String :=
  if n = 0 then "0" else ⟨((digitsRevFuel n n).reverse).map decDigit⟩

/-- Value of a little-endian decimal digit list. -/
def ofDigitsRev : List Nat → Nat
  | [] => 0
  | d :: ds => d + 10 * ofDigitsRev ds

/-- Loop of the inline-footnote identifier allocator: starting from
candidate `k`, keep incrementing while the decimal string of the candidate
is already a used identifier (the `while (identifiers.indexOf(...))` loop
of `footnote`).  Fuel `used.length + 1` always suffices. -/
def allocIdGo (used : List String) : Nat → Nat → Nat
  | 0, k => k
  | f + 1, k =>
    if natToString k ∈ used then allocIdGo used f (k + 1) else k

/-- Identifier allocated for an inline footnote: the decimal string of the
smallest positive integer whose string form is not among `used`
(`footnote`, lines 261–272). -/
def allocId (used : List String) : String :=
  natToString (allocIdGo used (used.length + 1) 1)

/-- First whitespace-delimited token of a code `lang` string — the
`FIRST_WORD` regex `^[^ \t]+(?=[ \t]|$)` of the source: the leading run of
non-blank characters, or nothing when the string starts with a blank or is
empty. -/
def firstWord (s : String) : Option String :=
  let w := s.data.takeWhile (fun c => ¬ isBlankChar c)
  if w.isEmpty then none else some ⟨w⟩

/-- A link/image definition as collected from `definition` nodes:
identifier, target URI (`link`), optional title. -/
structure Definition where
  identifier : String
  link : String
  title : Option String
deriving Repr, DecidableEq

/-- The document tree (§3 of the spec), embedded as a closed sum over the
node kinds the compiler deals with.  `hardBreak` is the kind the source
registers as `break` and `horizontalRule` the kind it registers under that
name (the compiler function is called `rule`).  `unknown` stands for a
node of any further kind string, carried so that the dispatcher's
behaviour on unregistered kinds can be stated.  Source-position metadata
is passed through opaquely by the source and never interpreted, so it is
omitted.  `attrs` on `listItem`/`link` are the node-attached `attributes`
objects that `generateFootnotes` places on the nodes it constructs (absent,
i.e. `[]`, on parser-produced nodes). -/
inductive Node where
  | paragraph (children : List Node)
  | heading (depth : Nat) (children : List Node)
  | blockquote (children : List Node)
  | list (ordered : Bool) (start : Option Int) (loose : Bool) (children : List Node)
  | listItem (attrs : List (String × String)) (children : List Node)
  | code (lang : Option String) (value : Option String)
  | table (align : List (Option String)) (children : List Node)
  | tableRow (children : List Node)
  | tableCell (children : List Node)
  | html (value : String)
  | horizontalRule
  | inlineCode (value : String)
  | strong (children : List Node)
  | emphasis (children : List Node)
  | delete (children : List Node)
  | hardBreak
  | link (href : String) (title : Option String) (attrs : List (String × String))
      (children : List Node)
  | image (src : String) (title : Option String) (alt : Option String)
  | footnote (children : List Node)
  | footnoteReference (identifier : String)
  | linkReference (identifier : String) (referenceType : String) (children : List Node)
  | imageReference (identifier : String) (referenceType : String) (alt : String)
  | text (value : String)
  | escape (value : String)
  | definition (identifier : String) (link : String) (title : Option String)
  | footnoteDefinition (identifier : String) (children : List Node)
  | yaml (value : String)
  | unknown (type : String)
deriving Repr

/-- The kind string of a node — the JavaScript `node.type` field. -/
def Node.kind : Node → String
  | .paragraph _ => "paragraph"
  | .heading _ _ => "heading"
  | .blockquote _ => "blockquote"
  | .list _ _ _ _ => "list"
  | .listItem _ _ => "listItem"
  | .code _ _ => "code"
  | .table _ _ => "table"
  | .tableRow _ => "tableRow"
  | .tableCell _ => "tableCell"
  | .html _ => "html"
  | .horizontalRule => "horizontalRule"
  | .inlineCode _ => "inlineCode"
  | .strong _ => "strong"
  | .emphasis _ => "emphasis"
  | .delete _ => "delete"
  | .hardBreak => "break"
  | .link _ _ _ _ => "link"
  | .image _ _ _ => "image"
  | .footnote _ => "footnote"
  | .footnoteReference _ => "footnoteReference"
  | .linkReference _ _ _ => "linkReference"
  | .imageReference _ _ _ => "imageReference"
  | .text _ => "text"
  | .escape _ => "escape"
  | .definition _ _ _ => "definition"
  | .footnoteDefinition _ _ => "footnoteDefinition"
  | .yaml _ => "yaml"
  | .unknown t => t

/-- The ordered child sequence of a node (`node.children`); `[]` for leaf
kinds, which carry no such field. -/
def childrenOf : Node → List Node
  | .paragraph cs => cs
  | .heading _ cs => cs
  | .blockquote cs => cs
  | .list _ _ _ cs => cs
  | .listItem _ cs => cs
  | .table _ cs => cs
  | .tableRow cs => cs
  | .tableCell cs => cs
  | .strong cs => cs
  | .emphasis cs => cs
  | .delete cs => cs
  | .link _ _ _ cs => cs
  | .footnote cs => cs
  | .linkReference _ _ cs => cs
  | .footnoteDefinition _ cs => cs
  | _ => []

/-- Whether the node carries a `children` field at all — the truthiness of
`node.children` in JavaScript (an empty array is still truthy). -/
def isContainer : Node → Bool
  | .paragraph _ => true
  | .heading _ _ => true
  | .blockquote _ => true
  | .list _ _ _ _ => true
  | .listItem _ _ => true
  | .table _ _ => true
  | .tableRow _ => true
  | .tableCell _ => true
  | .strong _ => true
  | .emphasis _ => true
  | .delete _ => true
  | .link _ _ _ _ => true
  | .footnote _ => true
  | .linkReference _ _ _ => true
  | .footnoteDefinition _ _ => true
  | _ => false

/-- Truthiness of `parent.loose`: the `loose` flag for lists, falsy
(absent) for every other node. -/
def looseOf : Node → Bool
  | .list _ _ l _ => l
  | _ => false

/-- The document root: `root` nodes appear only at the top of a tree
(§3), so the root is modelled as the compilation entry rather than as a
`Node` constructor. -/
structure RootNode where
  children : List Node
deriving Repr

/-- A record of the footnote store: the shape `generateFootnotes` and the
`footnote` compiler work with (`identifier` plus the definition's
children; the opaque `position` passthrough is omitted). -/
structure FootnoteRecord where
  identifier : String
  children : List Node
deriving Repr

/-- The per-compilation context: the definition index source and the
`sanitize` option.  The mutable footnote store is threaded separately
through every compiler. -/
structure Context where
  definitions : List Definition
  sanitize : Bool
deriving Repr

/-- The definition index (`root`, lines 195–197): later definitions
overwrite earlier ones under their upper-cased identifier. -/
def buildIndex (ds : List Definition) : String → Option Definition :=
  ds.foldl (fun m d => fun k => if k = d.identifier.toUpper then some d else m k)
    (fun _ => none)

/-- Index lookup performed by the reference compilers:
`self.definitions[node.identifier.toUpperCase()]`. -/
def findDefinition (ctx : Context) (identifier : String) : Option Definition :=
  buildIndex ctx.definitions identifier.toUpper

/-- `def.link || ''` on a possibly-missing definition (`{}` when the lookup
fails, whose `link` is falsy like an empty string). -/
def defLink : Option Definition → String
  | none => ""
  | some d => d.link

/-- `def.title` on a possibly-missing definition. -/
def defTitle : Option Definition → Option String
  | none => none
  | some d => d.title

/-- Void elements, rendered without content or closing tag. -/
def voidTags : List String :=
  ["hr", "img", "br"]

/-- One attribute of the element builder: absent (`none`) and empty values
omit the attribute entirely (spec §6); attribute values are
attribute-escaped. -/
def renderAttr (kv : String × Option String) : String :=
  match kv.2 with
  | none => ""
  | some v => if v = "" then "" else " " ++ kv.1 ++ "=\"" ++ encode v ++ "\""

/-- Modelled from the spec: the Element Builder collaborator `h` (§6) —
tag, attribute mapping (absent/empty omitted), content, and a block-layout
flag that places newlines around non-empty content; a void tag renders
childless with no closing tag.  Node-attached attributes are merged by the
callers (after the explicit ones). -/
def h (tag : String) (attrs : List (String × Option String)) (content : String)
    (block : Bool) : String :=
  let opening := "<" ++ tag ++ String.join (attrs.map renderAttr) ++ ">"
  if voidTags.contains tag then
    opening
  else
    opening ++ (if block ∧ content ≠ "" then "\n" else "") ++ content ++
      (if block ∧ content ≠ "" then "\n" else "") ++ "</" ++ tag ++ ">"

/-- Output of the `footnoteReference` compiler for an identifier: a
superscript with id `fnref-{identifier}` holding an anchor to
`#fn-{identifier}` labeled by the identifier (lines 619–628). -/
def footnoteReferenceRender (identifier : String) : String :=
  h "sup" [("id", some ("fnref-" ++ identifier))]
    (h "a" [("href", some ("#fn-" ++ identifier)), ("class", some "footnote-ref")]
      identifier false) false

/-- Node-attached attributes lifted into the element builder's attribute
mapping. -/
def nodeAttrs (attrs : List (String × String)) : List (String × Option String) :=
  attrs.map (fun kv => (kv.1, some kv.2))

/-- The break-trim test of `all` (lines 143–149): the previous sibling was
a hard break, or an escape whose value is a newline. -/
def prevBreakish : Option Node → Bool
  | some .hardBreak => true
  | some (.escape v) => v = "\n"
  | _ => false

/-- Cells rendered for a row the source never reads (`rows[index]`
out of range); this cannot arise from the `table` compiler, whose index
starts at `rows.length`. -/
def emptyCells (align : List (Option String)) (isHead : Bool) : List String :=
  align.map (fun a => h (if isHead then "th" else "td") [("align", a)] "" false)

mutual

/-- The dispatcher together with the registered compilers: `visit(node,
parent)` looks the node kind up in the `visitors` table and runs the
compiler, which receives the footnote store `st` and returns it possibly
extended.  Of the parent only its `loose` truthiness is consulted (by
`listItem`), so the parent argument is embedded as `pl`.  A kind with no
table entry — `unknown`, and also `tableRow`/`tableCell`, for which the
source registers nothing — fails with the Unsupported-Node error
(modelled from the spec, §4.3/§7: the error names the kind). -/
def visit (ctx : Context) (pl : Bool) (node : Node) (st : List FootnoteRecord) :
    Except String (String × List FootnoteRecord) :=
  match node with
  | .paragraph cs =>
    match all ctx false none cs st with
    | .error e => .error e
    | .ok (vs, st') => .ok (h "p" [] (trim (detab (String.join vs))) false, st')
  | .heading depth cs =>
    match all ctx false none cs st with
    | .error e => .error e
    | .ok (vs, st') => .ok (h ("h" ++ natToString depth) [] (String.join vs) false, st')
  | .blockquote cs =>
    match all ctx false none cs st with
    | .error e => .error e
    | .ok (vs, st') => .ok (h "blockquote" [] (String.intercalate "\n" vs) true, st')
  | .list ordered start loose cs =>
    match all ctx loose none cs st with
    | .error e => .error e
    | .ok (vs, st') =>
      .ok (h (if ordered then "ol" else "ul")
        [("start", match start with
          | none => none
          | some v => if v = 1 then none else some (toString v))]
        (String.intercalate "\n" vs) true, st')
  | .listItem attrs cs =>
    match cs with
    | [c] =>
      if ¬ pl ∧ isContainer c then
        match all ctx (looseOf c) none (childrenOf c) st with
        | .error e => .error e
        | .ok (vs, st') => .ok (h "li" (nodeAttrs attrs) (String.join vs) false, st')
      else
        match all ctx false none [c] st with
        | .error e => .error e
        | .ok (vs, st') =>
          .ok (h "li" (nodeAttrs attrs) (String.intercalate "\n" vs) true, st')
    | [] =>
      match all ctx false none ([] : List Node) st with
      | .error e => .error e
      | .ok (vs, st') =>
        .ok (h "li" (nodeAttrs attrs) (String.intercalate "\n" vs) true, st')
    | c1 :: c2 :: rest =>
      match all ctx false none (c1 :: c2 :: rest) st with
      | .error e => .error e
      | .ok (vs, st') =>
        .ok (h "li" (nodeAttrs attrs) (String.intercalate "\n" vs) true, st')
  | .code lang value =>
    .ok (h "pre" []
      (h "code"
        [("class", match lang with
          | some lg =>
            match firstWord lg with
            | some w => some ("language-" ++ w)
            | none => none
          | none => none)]
        (encode (match value with
          | some v => if v = "" then "" else detab (v ++ "\n")
          | none => "")) false) false, st)
  | .table align rows =>
    match rowsGo ctx align rows rows.length st with
    | .error e => .error e
    | .ok (outs, st') =>
      .ok (h "table" []
        (h "thead" [] (outs.headD "") true ++ "\n" ++
          h "tbody" [] (String.intercalate "\n" (outs.drop 1)) true) true, st')
  | .tableRow _ => .error "Unsupported node: tableRow"
  | .tableCell _ => .error "Unsupported node: tableCell"
  | .html v => .ok (if ctx.sanitize then encode v else v, st)
  | .horizontalRule => .ok (h "hr" [] "" false, st)
  | .inlineCode v => .ok (h "code" [] (collapse (encode v)) false, st)
  | .strong cs =>
    match all ctx false none cs st with
    | .error e => .error e
    | .ok (vs, st') => .ok (h "strong" [] (String.join vs) false, st')
  | .emphasis cs =>
    match all ctx false none cs st with
    | .error e => .error e
    | .ok (vs, st') => .ok (h "em" [] (String.join vs) false, st')
  | .delete cs =>
    match all ctx false none cs st with
    | .error e => .error e
    | .ok (vs, st') => .ok (h "del" [] (String.join vs) false, st')
  | .hardBreak => .ok (h "br" [] "" false ++ "\n", st)
  | .link href title attrs cs =>
    match all ctx false none cs st with
    | .error e => .error e
    | .ok (vs, st') =>
      .ok (h "a" ([("href", some (normalizeURI href)), ("title", title)] ++
        nodeAttrs attrs) (String.join vs) false, st')
  | .image src title alt =>
    .ok (h "img" [("src", some (normalizeURI src)), ("alt", some (alt.getD "")),
      ("title", title)] "" false, st)
  | .footnote cs =>
    let identifier := allocId (st.map (fun r => r.identifier))
    .ok (footnoteReferenceRender identifier, st ++ [⟨identifier, cs⟩])
  | .footnoteReference identifier => .ok (footnoteReferenceRender identifier, st)
  | .linkReference identifier referenceType cs =>
    let defn := findDefinition ctx identifier
    if referenceType = "shortcut" ∧ defLink defn = "" then
      match all ctx false none cs st with
      | .error e => .error e
      | .ok (vs, st') => .ok ("[" ++ String.join vs ++ "]", st')
    else
      match all ctx false none cs st with
      | .error e => .error e
      | .ok (vs, st') =>
        .ok (h "a" [("href", some (normalizeURI (defLink defn))),
          ("title", defTitle defn)] (String.join vs) false, st')
  | .imageReference identifier referenceType alt =>
    let defn := findDefinition ctx identifier
    if referenceType = "shortcut" ∧ defLink defn = "" then
      .ok ("![" ++ alt ++ "]", st)
    else
      .ok (h "img" [("src", some (normalizeURI (defLink defn))), ("alt", some alt),
        ("title", defTitle defn)] "" false, st)
  | .text v => .ok (trimLines (encode v), st)
  | .escape v =>
    if v = "\n" then .ok (h "br" [] "" false ++ "\n", st)
    else .ok (trimLines (encode v), st)
  | .definition _ _ _ => .ok ("", st)
  | .footnoteDefinition _ _ => .ok ("", st)
  | .yaml _ => .ok ("", st)
  | .unknown t => .error ("Unsupported node: " ++ t)
termination_by (sizeOf node, 0)
decreasing_by
  all_goals apply Prod.Lex.left
  all_goals first
  | (simp; omega)
  | (have hc : sizeOf (childrenOf c) ≤ sizeOf c := by
      cases c <;> simp [childrenOf] <;> omega
     simp
     omega)
  | simp

/-- `all(parent)` (lines 130–160): visit the children in order, drop empty
compiled values, and left-trim a value whose previous sibling was a hard
break or an escaped newline.  `prev` is the loop's previous-sibling
variable (`none` at entry). -/
def all (ctx : Context) (pl : Bool) (prev : Option Node) (nodes : List Node)
    (st : List FootnoteRecord) : Except String (List String × List FootnoteRecord) :=
  match nodes with
  | [] => .ok ([], st)
  | n :: rest =>
    match visit ctx pl n st with
    | .error e => .error e
    | .ok (value, st1) =>
      match all ctx pl (some n) rest st1 with
      | .error e => .error e
      | .ok (vs, st2) =>
        if value = "" then .ok (vs, st2)
        else if prevBreakish prev then .ok (trimLeft value :: vs, st2)
        else .ok (value :: vs, st2)
termination_by (sizeOf nodes, 0)
decreasing_by
  all_goals apply Prod.Lex.left <;> simp <;> omega

/-- The row loop of `table` (lines 457–470): `index` counts down from
`rows.length`, so the last row is compiled first, but each result is
stored at its own index, keeping document order in the output list. -/
def rowsGo (ctx : Context) (align : List (Option String)) (rows : List Node)
    (i : Nat) (st : List FootnoteRecord) :
    Except String (List String × List FootnoteRecord) :=
  match i with
  | 0 => .ok ([], st)
  | i' + 1 =>
    match hrow : rows.get? i' with
    | some row =>
      match cellsGo ctx align (i' = 0) (childrenOf row) align.length st with
      | .error e => .error e
      | .ok (cells, st1) =>
        match rowsGo ctx align rows i' st1 with
        | .error e => .error e
        | .ok (rest, st2) =>
          .ok (rest ++ [h "tr" [] (String.intercalate "\n" cells) true], st2)
    | none =>
      match rowsGo ctx align rows i' st with
      | .error e => .error e
      | .ok (rest, st2) =>
        .ok (rest ++ [h "tr" []
          (String.intercalate "\n" (emptyCells align (i' = 0))) true], st2)
termination_by (sizeOf rows, i)
decreasing_by
  · apply Prod.Lex.left
    have hm : row ∈ rows := List.get?_mem hrow
    have h1 : sizeOf row < sizeOf rows := List.sizeOf_lt_of_mem hm
    have h2 : sizeOf (childrenOf row) ≤ sizeOf row := by
      cases row <;> simp [childrenOf] <;> omega
    omega
  · apply Prod.Lex.right; omega
  · apply Prod.Lex.right; omega

/-- The cell loop of a table row (lines 463–467): `pos` counts down from
`align.length`; a position with no cell in the row renders an empty cell;
cells at positions at or past `align.length` are never read. -/
def cellsGo (ctx : Context) (align : List (Option String)) (isHead : Bool)
    (cells : List Node) (p : Nat) (st : List FootnoteRecord) :
    Except String (List String × List FootnoteRecord) :=
  match p with
  | 0 => .ok ([], st)
  | q + 1 =>
    match hcell : cells.get? q with
    | some cell =>
      match all ctx (looseOf cell) none (childrenOf cell) st with
      | .error e => .error e
      | .ok (vs, st1) =>
        match cellsGo ctx align isHead cells q st1 with
        | .error e => .error e
        | .ok (rest, st2) =>
          .ok (rest ++ [h (if isHead then "th" else "td")
            [("align", (align.get? q).getD none)]
            (String.intercalate "\n" vs) false], st2)
    | none =>
      match cellsGo ctx align isHead cells q st with
      | .error e => .error e
      | .ok (rest, st2) =>
        .ok (rest ++ [h (if isHead then "th" else "td")
          [("align", (align.get? q).getD none)] "" false], st2)
termination_by (sizeOf cells, p)
decreasing_by
  · apply Prod.Lex.left
    have hm : cell ∈ cells := List.get?_mem hcell
    have h1 : sizeOf cell < sizeOf cells := List.sizeOf_lt_of_mem hm
    have h2 : sizeOf (childrenOf cell) ≤ sizeOf cell := by
      cases cell <;> simp [childrenOf] <;> omega
    omega
  · apply Prod.Lex.right; omega
  · apply Prod.Lex.right; omega

end

/-- The `listItem` node the footnote section generator constructs for a
record (lines 85–102): the record's children with the back-reference
anchor appended, and id `fn-{identifier}`. -/
def footnoteItem (r : FootnoteRecord) : Node :=
  .listItem [("id", "fn-" ++ r.identifier)]
    (r.children ++
      [.link ("#fnref-" ++ r.identifier) none [("class", "footnote-backref")]
        [.text "↩"]])

/-- The item loop of `generateFootnotes`: each of the records present when
the generator starts is compiled through the `listItem` compiler with `{}`
as parent (whose `loose` is falsy); records appended while generating are
carried in the store but not rendered, exactly like the captured `length`
bound of the source loop. -/
def genItems (ctx : Context) (records : List FootnoteRecord)
    (st : List FootnoteRecord) :
    Except String (List String × List FootnoteRecord) :=
  match records with
  | [] => .ok ([], st)
  | r :: rest =>
    match visit ctx false (footnoteItem r) st with
    | .error e => .error e
    | .ok (item, st1) =>
      match genItems ctx rest st1 with
      | .error e => .error e
      | .ok (items, st2) => .ok (item :: items, st2)

/-- `generateFootnotes` (lines 69–111): empty store → empty string;
otherwise a rule and an ordered list of the items, wrapped in a
`footnotes`-classed container, followed by one extra newline. -/
def generateFootnotes (ctx : Context) (st : List FootnoteRecord) :
    Except String (String × List FootnoteRecord) :=
  match st with
  | [] => .ok ("", st)
  | _ =>
    match genItems ctx st st with
    | .error e => .error e
    | .ok (results, st') =>
      .ok (h "div" [("class", some "footnotes")]
        (h "hr" [] "" false ++ "\n" ++
          h "ol" [] (String.intercalate "\n" results) true) true ++ "\n", st')

mutual

/-- Preorder listing of a node and all of its descendants — the traversal
order of the `mdast-util-visit` pre-pass used by `root`. -/
def subnodes : Node → List Node
  | .paragraph cs => .paragraph cs :: subnodesList cs
  | .heading d cs => .heading d cs :: subnodesList cs
  | .blockquote cs => .blockquote cs :: subnodesList cs
  | .list o s l cs => .list o s l cs :: subnodesList cs
  | .listItem a cs => .listItem a cs :: subnodesList cs
  | .code l v => [.code l v]
  | .table a cs => .table a cs :: subnodesList cs
  | .tableRow cs => .tableRow cs :: subnodesList cs
  | .tableCell cs => .tableCell cs :: subnodesList cs
  | .html v => [.html v]
  | .horizontalRule => [.horizontalRule]
  | .inlineCode v => [.inlineCode v]
  | .strong cs => .strong cs :: subnodesList cs
  | .emphasis cs => .emphasis cs :: subnodesList cs
  | .delete cs => .delete cs :: subnodesList cs
  | .hardBreak => [.hardBreak]
  | .link hr t a cs => .link hr t a cs :: subnodesList cs
  | .image s t a => [.image s t a]
  | .footnote cs => .footnote cs :: subnodesList cs
  | .footnoteReference i => [.footnoteReference i]
  | .linkReference i r cs => .linkReference i r cs :: subnodesList cs
  | .imageReference i r a => [.imageReference i r a]
  | .text v => [.text v]
  | .escape v => [.escape v]
  | .definition i l t => [.definition i l t]
  | .footnoteDefinition i cs => .footnoteDefinition i cs :: subnodesList cs
  | .yaml v => [.yaml v]
  | .unknown t => [.unknown t]

/-- Preorder listing over a child sequence. -/
def subnodesList : List Node → List Node
  | [] => []
  | n :: ns => subnodes n ++ subnodesList ns

end

/-- The definitions collected by the pre-pass of `root` (lines 195–197),
in document order. -/
def collectedDefinitions (t : RootNode) : List Definition :=
  (subnodesList t.children).filterMap fun n =>
    match n with
    | .definition i l ti => some ⟨i, l, ti⟩
    | _ => none

/-- The explicit footnote-definition records collected by the pre-pass of
`root` (lines 199–201), in document order. -/
def collectedFootnotes (t : RootNode) : List FootnoteRecord :=
  (subnodesList t.children).filterMap fun n =>
    match n with
    | .footnoteDefinition i cs => some ⟨i, cs⟩
    | _ => none

/-- The `root` compiler (lines 186–206): build the definition index and
the initial footnote store by the pre-pass, compile the children joined by
newlines, append one trailing newline when non-empty, and always append
the footnote section.  Returns the output together with the final state of
the footnote store. -/
def root (node : RootNode) (sanitize : Bool) :
    Except String (String × List FootnoteRecord) :=
  let ctx : Context := ⟨collectedDefinitions node, sanitize⟩
  match all ctx false none node.children (collectedFootnotes node) with
  | .error e => .error e
  | .ok (vs, st1) =>
    let result := String.intercalate "\n" vs
    match generateFootnotes ctx st1 with
    | .error e => .error e
    | .ok (gen, st2) =>
      .ok ((if result = "" then "" else result ++ "\n") ++ gen, st2)

/-- Number of `footnote` nodes in a subtree (the inline footnotes of the
spec's counting property). -/
def countFn (n : Node) : Nat :=
  (subnodes n).countP fun m => m.kind = "footnote"

/-- Number of `footnote` nodes under a child sequence. -/
def countFnList (ns : List Node) : Nat :=
  (subnodesList ns).countP fun m => m.kind = "footnote"

/-- A subtree containing no inline `footnote` node at all. -/
def fnFree (n : Node) : Bool :=
  countFn n = 0

/-- Is the node a `tableRow` or `tableCell`, kinds the dispatcher has no
compiler for and that are only consumed in place by `table`? -/
def isRowOrCell : Node → Bool
  | .tableRow _ => true
  | .tableCell _ => true
  | _ => false

/-- Is the node a `tableRow`? -/
def isTableRowNode : Node → Bool
  | .tableRow _ => true
  | _ => false

/-- Is the node a `tableCell`? -/
def isTableCellNode : Node → Bool
  | .tableCell _ => true
  | _ => false

/-- Node-local structural-validity check: no `unknown` kind; table
children are rows and row children are cells; rows/cells appear nowhere
else; and a list item does not consist of exactly one table (the source
would unwrap it and dispatch its rows, which have no compiler). -/
def localSvn : Node → Bool
  | .unknown _ => false
  | .table _ rows =>
    rows.all fun r => match r with | .tableRow _ => true | _ => false
  | .tableRow cells =>
    cells.all fun c => match c with | .tableCell _ => true | _ => false
  | .listItem _ cs =>
    (match cs with | [.table _ _] => false | _ => true) &&
      cs.all (fun c => ! isRowOrCell c)
  | n => (childrenOf n).all (fun c => ! isRowOrCell c)

/-- Structurally valid, dispatch-safe node: every node of the subtree
passes the local check. -/
def svn (n : Node) : Bool :=
  (subnodes n).all localSvn

/-- Structurally valid child sequence. -/
def svnList (ns : List Node) : Bool :=
  (subnodesList ns).all localSvn

/-- Structurally valid tree: valid children, none of which is a stray
row or cell. -/
def svnRoot (t : RootNode) : Bool :=
  svnList t.children && t.children.all (fun c => ! isRowOrCell c)

/-- Node-local condition under which every inline footnote of the tree is
dispatched exactly once during the main pass and the generation pass
allocates nothing: footnote and footnote-definition content is
footnote-free, no list item consists of exactly one footnote (the unwrap
path would skip it), and no table row is longer than the alignment list
(extra cells are dropped unread). -/
def localGood : Node → Bool
  | .footnote cs => cs.all fnFree
  | .footnoteDefinition _ cs => cs.all fnFree
  | .listItem _ cs => match cs with | [.footnote _] => false | _ => true
  | .table align rows =>
    rows.all fun r => (childrenOf r).length ≤ align.length
  | _ => true

/-- Every node of the subtree passes the footnote-placement check. -/
def good (n : Node) : Bool :=
  (subnodes n).all localGood

/-- Footnote-placement check over a child sequence. -/
def goodList (ns : List Node) : Bool :=
  (subnodesList ns).all localGood

/-- Footnote-placement check over a tree. -/
def goodRoot (t : RootNode) : Bool :=
  (subnodesList t.children).all localGood

/-- Footnote-free child sequence. -/
def fnFreeList (ns : List Node) : Bool :=
  ns.all fnFree

/-- A well-formed footnote record as stored by the compiler: its children
are structurally valid and none of them is a stray row or cell (this is
what the generation pass needs to compile the record). -/
def recOk (r : FootnoteRecord) : Bool :=
  svnList r.children && r.children.all (fun c => ! isRowOrCell c)

/-- The records appended to a store during some compilation step are all
fresh allocations: the `j`-th new record's identifier is exactly what the
allocator returns against everything that preceded it. -/
def allocOk (st new : List FootnoteRecord) : Prop :=
  ∀ j (hj : j < new.length),
    (new.get ⟨j, hj⟩).identifier =
      allocId ((st ++ new.take j).map (fun r => r.identifier))

/-- The allocation property as the spec words it: the identifier is the
decimal form of the smallest positive integer whose decimal form is not
among the identifiers `used` at the moment of allocation. -/
def smallestUnused (used : List String) (identifier : String) : Prop :=
  ∃ k : Nat, 1 ≤ k ∧ identifier = natToString k ∧ identifier ∉ used ∧
    ∀ i, 1 ≤ i → i < k → natToString i ∈ used

mutual

/-- Mirror of `visit`'s dispatch counting how many times the `footnote`
compiler runs (and hence how many records the store gains) while the node
is compiled; `pl` is the parent's looseness exactly as in `visit`. -/
def fnCount (pl : Bool) (node : Node) : Nat :=
  match node with
  | .paragraph cs => fnCountList false cs
  | .heading _ cs => fnCountList false cs
  | .blockquote cs => fnCountList false cs
  | .list _ _ l cs => fnCountList l cs
  | .listItem _ cs =>
    match cs with
    | [c] =>
      if ¬ pl ∧ isContainer c then fnCountList (looseOf c) (childrenOf c)
      else fnCountList false [c]
    | [] => 0
    | c1 :: c2 :: rest => fnCountList false (c1 :: c2 :: rest)
  | .table align rows => fnCountRows align.length rows rows.length
  | .strong cs => fnCountList false cs
  | .emphasis cs => fnCountList false cs
  | .delete cs => fnCountList false cs
  | .link _ _ _ cs => fnCountList false cs
  | .linkReference _ _ cs => fnCountList false cs
  | .footnote _ => 1
  | _ => 0
termination_by (sizeOf node, 0)
decreasing_by
  all_goals apply Prod.Lex.left
  all_goals first
  | (simp; omega)
  | (have hc : sizeOf (childrenOf c) ≤ sizeOf c := by
      cases c <;> simp [childrenOf] <;> omega
     simp
     omega)
  | simp

/-- Dispatch count over a visited child sequence, with the looseness flag
the corresponding `all` call passes to every child. -/
def fnCountList (pl : Bool) : List Node → Nat
  | [] => 0
  | n :: rest => fnCount pl n + fnCountList pl rest
termination_by ns => (sizeOf ns, 0)
decreasing_by
  all_goals apply Prod.Lex.left
  all_goals first
  | (simp; omega)
  | simp

/-- Dispatch count of the table row loop. -/
def fnCountRows (alignLen : Nat) (rows : List Node) (i : Nat) : Nat :=
  match i with
  | 0 => 0
  | i' + 1 =>
    (match hrow : rows.get? i' with
      | some row => fnCountCells (childrenOf row) alignLen
      | none => 0) + fnCountRows alignLen rows i'
    -- the last row is counted first, matching the loop direction
    -- of the source; addition is commutative so the total is the same
termination_by (sizeOf rows, i)
decreasing_by
  · apply Prod.Lex.left
    have hm : row ∈ rows := List.get?_mem hrow
    have h1 : sizeOf row < sizeOf rows := List.sizeOf_lt_of_mem hm
    have h2 : sizeOf (childrenOf row) ≤ sizeOf row := by
      cases row <;> simp [childrenOf] <;> omega
    omega
  · apply Prod.Lex.right; omega

/-- Dispatch count of the table cell loop. -/
def fnCountCells (cells : List Node) (p : Nat) : Nat :=
  match p with
  | 0 => 0
  | q + 1 =>
    (match hcell : cells.get? q with
      | some cell => fnCountList (looseOf cell) (childrenOf cell)
      | none => 0) + fnCountCells cells q
termination_by (sizeOf cells, p)
decreasing_by
  · apply Prod.Lex.left
    have hm : cell ∈ cells := List.get?_mem hcell
    have h1 : sizeOf cell < sizeOf cells := List.sizeOf_lt_of_mem hm
    have h2 : sizeOf (childrenOf cell) ≤ sizeOf cell := by
      cases cell <;> simp [childrenOf] <;> omega
    omega
  · apply Prod.Lex.right; omega

end

/-- The node kinds listed by the spec's data model (§3). -/
def documentedNodeKinds : List String :=
  ["root", "paragraph", "heading", "blockquote", "list", "listItem", "code",
   "table", "tableRow", "html", "rule", "inlineCode", "strong", "emphasis",
   "break", "link", "image", "footnote", "footnoteReference", "linkReference",
   "imageReference", "delete", "text", "escape", "definition",
   "footnoteDefinition", "yaml"]

/-- The kind keys under which the source registers a compiler in the
`visitors` table (lines 774–804; `all` and `generateFootnotes` are helper
methods on the same object, not node kinds). -/
def registeredCompilerKinds : List String :=
  ["yaml", "definition", "footnoteDefinition", "footnote", "root",
   "blockquote", "list", "listItem", "paragraph", "heading", "table", "code",
   "html", "horizontalRule", "inlineCode", "strong", "emphasis", "break",
   "link", "image", "footnoteReference", "linkReference", "imageReference",
   "delete", "text", "escape"]

/-- Kind strings of every node in a tree (the root node's own kind,
`root`, is both documented and registered; it is the compilation entry). -/
def treeKinds (t : RootNode) : List String :=
  (subnodesList t.children).map Node.kind

/-- Does the string end in a newline character? -/
def endsWithNewline (s : String) : Bool :=
  s.data.getLast? = some '\n'

/-- Does the string end in two newline characters? -/
def endsWithTwoNewlines (s : String) : Bool :=
  match s.data.reverse with
  | '\n' :: '\n' :: _ => true
  | _ => false

/-- The index lookup stated the spec's way: the definition declared last
among those whose upper-cased identifier matches the key. -/
def resolveSpec (ds : List Definition) (k : String) : Option Definition :=
  (ds.filter (fun d => d.identifier.toUpper = k)).getLast?

/-- One table row rendered the spec's way (§4.4, forward order): one cell
per alignment index, header or data cells by row position, a missing cell
rendered empty but still carrying the column's alignment.  `st` is the
footnote store the row's cells are compiled against (their compilation
leaves it unchanged whenever the cells are footnote-free). -/
def tableSpecRow (ctx : Context) (align : List (Option String)) (isHead : Bool)
    (row : Node) (st : List FootnoteRecord) : String :=
  h "tr" []
    (String.intercalate "\n"
      ((List.range align.length).map fun j =>
        h (if isHead then "th" else "td") [("align", (align.get? j).getD none)]
          (match (childrenOf row).get? j with
            | some cell =>
              match all ctx (looseOf cell) none (childrenOf cell) st with
              | .ok (vs, _) => String.intercalate "\n" vs
              | .error _ => ""
            | none => "") false)) true

def stepOk (st new : List FootnoteRecord) (cnt : Nat) (g : Bool) : Prop :=
  new.length = cnt ∧ allocOk st new ∧ (∀ r ∈ new, recOk r = true) ∧
    (g = true → ∀ r ∈ new, fnFreeList r.children = true)

def visitP (ctx : Context) (pl : Bool) (node : Node) (st : List FootnoteRecord) : Prop :=
  svn node = true → isRowOrCell node = false →
    ∃ out new, visit ctx pl node st = .ok (out, st ++ new) ∧
      stepOk st new (fnCount pl node) (good node)

def allP (ctx : Context) (pl : Bool) (prev : Option Node) (ns : List Node)
    (st : List FootnoteRecord) : Prop :=
  svnList ns = true → (ns.all fun c => ! isRowOrCell c) = true →
    ∃ vs new, all ctx pl prev ns st = .ok (vs, st ++ new) ∧
      stepOk st new (fnCountList pl ns) (goodList ns)

def rowsP (ctx : Context) (align : List (Option String)) (rows : List Node)
    (i : Nat) (st : List FootnoteRecord) : Prop :=
  svnList rows = true → (rows.all isTableRowNode) = true →
    ∃ outs new, rowsGo ctx align rows i st = .ok (outs, st ++ new) ∧
      stepOk st new (fnCountRows align.length rows i) (goodList rows)

def cellsP (ctx : Context) (align : List (Option String)) (isHead : Bool)
    (cells : List Node) (p : Nat) (st : List FootnoteRecord) : Prop :=
  svnList cells = true → (cells.all isTableCellNode) = true →
    ∃ outs new, cellsGo ctx align isHead cells p st = .ok (outs, st ++ new) ∧
      stepOk st new (fnCountCells cells p) (goodList cells)

/-- A whole table rendered the spec's way: row 0 as header cells inside the
header section, the remaining rows as data cells inside the body section,
in document order. -/
def tableSpecRender (ctx : Context) (align : List (Option String))
    (rows : List Node) (st : List FootnoteRecord) : String :=
  h "table" []
    (h "thead" []
      (match rows with
        | [] => ""
        | r :: _ => tableSpecRow ctx align true r st) true ++ "\n" ++
      h "tbody" []
        (String.intercalate "\n"
          ((rows.drop 1).map fun r => tableSpecRow ctx align false r st)) true)
    true

/-! ### Theory of the decimal identifier strings and the allocator -/

theorem ofDigitsRev_digitsRevFuel : ∀ f n, n ≤ f → ofDigitsRev (digitsRevFuel f n) = n := by
  intro f
  induction f with
  | zero =>
    intro n hn
    have : n = 0 := by omega
    subst this
    simp [digitsRevFuel, ofDigitsRev]
  | succ f ih =>
    intro n hn
    by_cases h0 : n = 0
    · subst h0; simp [digitsRevFuel, ofDigitsRev]
    · have hd : n / 10 ≤ f := by
        have := Nat.div_lt_self (Nat.pos_of_ne_zero h0) (by omega : 1 < 10)
        omega
      simp only [digitsRevFuel, h0, if_false, ofDigitsRev, ih _ hd]
      omega

theorem digitsRevFuel_lt_ten : ∀ f n d, d ∈ digitsRevFuel f n → d < 10 := by
  intro f
  induction f with
  | zero => intro n d hd; simp [digitsRevFuel] at hd
  | succ f ih =>
    intro n d hd
    by_cases h0 : n = 0
    · simp [digitsRevFuel, h0] at hd
    · simp only [digitsRevFuel, h0, if_false, List.mem_cons] at hd
      rcases hd with hd | hd
      · subst hd; omega
      · exact ih _ _ hd

theorem decDigit_inj : ∀ d1, d1 < 10 → ∀ d2, d2 < 10 → decDigit d1 = decDigit d2 → d1 = d2 := by
  decide

theorem map_decDigit_inj : ∀ l1 l2 : List Nat, (∀ d ∈ l1, d < 10) → (∀ d ∈ l2, d < 10) →
    l1.map decDigit = l2.map decDigit → l1 = l2 := by
  intro l1
  induction l1 with
  | nil => intro l2 _ _ hm; cases l2 <;> simp_all
  | cons d ds ih =>
    intro l2 h1 h2 hm
    cases l2 with
    | nil => simp at hm
    | cons e es =>
      simp only [List.map_cons, List.cons.injEq] at hm
      have hde : d = e :=
        decDigit_inj d (h1 d (by simp)) e (h2 e (by simp)) hm.1
      have := ih es (fun x hx => h1 x (by simp [hx])) (fun x hx => h2 x (by simp [hx])) hm.2
      simp [hde, this]

theorem natToString_injective : ∀ a b, natToString a = natToString b → a = b := by
  have key : ∀ n, n ≠ 0 → ∀ m, m ≠ 0 →
      natToString n = natToString m → n = m := by
    intro n hn m hm he
    simp only [natToString, hn, hm, if_false] at he
    have he' : ((digitsRevFuel n n).reverse).map decDigit =
        ((digitsRevFuel m m).reverse).map decDigit := congrArg String.data he
    have h1 := map_decDigit_inj (digitsRevFuel n n).reverse (digitsRevFuel m m).reverse
      (fun d hd => digitsRevFuel_lt_ten n n d (List.mem_reverse.mp hd))
      (fun d hd => digitsRevFuel_lt_ten m m d (List.mem_reverse.mp hd)) he'
    have h2 : digitsRevFuel n n = digitsRevFuel m m :=
      List.reverse_injective h1
    have h3 := ofDigitsRev_digitsRevFuel n n (le_refl n)
    have h4 := ofDigitsRev_digitsRevFuel m m (le_refl m)
    rw [h2] at h3
    omega
  have zer : ∀ n, n ≠ 0 → natToString n ≠ "0" := by
    intro n hn hc
    simp only [natToString, hn, if_false] at hc
    have hdata : ((digitsRevFuel n n).reverse).map decDigit = ['0'] := by
      have := congrArg String.data hc
      simpa using this
    have h0 : (0 : Nat) < 10 := by omega
    have : (digitsRevFuel n n).reverse = [0] := by
      apply map_decDigit_inj
      · intro d hd; exact digitsRevFuel_lt_ten n n d (List.mem_reverse.mp hd)
      · intro d hd; simp at hd; omega
      · simpa [decDigit] using hdata
    have h2 : digitsRevFuel n n = [0] := by
      have := congrArg List.reverse this
      simpa using this
    have h3 := ofDigitsRev_digitsRevFuel n n (le_refl n)
    rw [h2] at h3
    simp [ofDigitsRev] at h3
    exact hn h3.symm
  intro a b he
  by_cases ha : a = 0 <;> by_cases hb : b = 0
  · omega
  · subst ha
    exact absurd he.symm (by simpa [natToString] using zer b hb)
  · subst hb
    exact absurd he (by simpa [natToString] using zer a ha)
  · exact key a ha b hb he

theorem allocIdGo_spec (used : List String) :
    ∀ f k, (∃ m, k ≤ m ∧ m < k + f ∧ natToString m ∉ used) →
      natToString (allocIdGo used f k) ∉ used ∧
      k ≤ allocIdGo used f k ∧
      ∀ j, k ≤ j → j < allocIdGo used f k → natToString j ∈ used := by
  intro f
  induction f with
  | zero =>
    rintro k ⟨m, h1, h2, _⟩
    omega
  | succ f ih =>
    rintro k ⟨m, h1, h2, h3⟩
    by_cases hk : natToString k ∈ used
    · have hmk : k + 1 ≤ m := by
        rcases Nat.eq_or_lt_of_le h1 with he | hl
        · exact absurd hk (he ▸ h3)
        · omega
      obtain ⟨r1, r2, r3⟩ := ih (k + 1) ⟨m, hmk, by omega, h3⟩
      simp only [allocIdGo, if_pos hk]
      refine ⟨r1, by omega, ?_⟩
      intro j hj1 hj2
      rcases Nat.eq_or_lt_of_le hj1 with he | hl
      · exact he ▸ hk
      · exact r3 j (by omega) hj2
    · simp only [allocIdGo, if_neg hk]
      exact ⟨hk, le_refl k, fun j hj1 hj2 => by omega⟩

theorem exists_unused (used : List String) :
    ∃ m, 1 ≤ m ∧ m < 1 + (used.length + 1) ∧ natToString m ∉ used := by
  by_contra hc
  push_neg at hc
  have hsub : (List.range' 1 (used.length + 1)).map natToString ⊆ used := by
    intro s hs
    simp only [List.mem_map, List.mem_range'_1] at hs
    obtain ⟨m, hm, rfl⟩ := hs
    exact hc m (by omega) (by omega)
  have hnd : ((List.range' 1 (used.length + 1)).map natToString).Nodup :=
    List.Nodup.map (fun a b hab => natToString_injective a b hab)
      (List.nodup_range' 1 (used.length + 1))
  have hlen := (List.subperm_of_subset hnd hsub).length_le
  simp at hlen

/-- The allocator returns the decimal form of the smallest positive integer
whose decimal form is not yet used. -/
theorem allocId_spec (used : List String) :
    ∃ k : Nat, 1 ≤ k ∧ allocId used = natToString k ∧ natToString k ∉ used ∧
      ∀ j, 1 ≤ j → j < k → natToString j ∈ used := by
  obtain ⟨r1, r2, r3⟩ := allocIdGo_spec used (used.length + 1) 1 (exists_unused used)
  exact ⟨allocIdGo used (used.length + 1) 1, r2, rfl, r1, r3⟩

theorem allocId_not_mem (used : List String) : allocId used ∉ used := by
  obtain ⟨k, _, hk, hmem, _⟩ := allocId_spec used
  rw [hk]
  exact hmem

/-! ### Structure of the preorder traversal and the validity predicates -/

theorem subnodesList_cons (n : Node) (ns : List Node) :
    subnodesList (n :: ns) = subnodes n ++ subnodesList ns := by
  simp [subnodesList]

theorem subnodesList_append : ∀ ns ms : List Node,
    subnodesList (ns ++ ms) = subnodesList ns ++ subnodesList ms := by
  intro ns ms
  induction ns with
  | nil => simp [subnodesList]
  | cons n ns ih => simp [subnodesList_cons, ih]

theorem subnodes_eq (n : Node) :
    subnodes n = n :: subnodesList (childrenOf n) := by
  cases n <;> simp [subnodes, childrenOf, subnodesList]

theorem mem_subnodes_self (n : Node) : n ∈ subnodes n := by
  rw [subnodes_eq]; simp

theorem subnodes_subset_of_mem : ∀ ns : List Node, ∀ c ∈ ns,
    subnodes c ⊆ subnodesList ns := by
  intro ns
  induction ns with
  | nil => intro c hc; simp at hc
  | cons n ns ih =>
    intro c hc
    rcases List.mem_cons.mp hc with h | h
    · subst h; rw [subnodesList_cons]; exact List.subset_append_left _ _
    · rw [subnodesList_cons]
      exact (ih c h).trans (List.subset_append_right _ _)

theorem sizeOf_childrenOf_le (n : Node) : sizeOf (childrenOf n) ≤ sizeOf n := by
  cases n <;> simp [childrenOf] <;> omega

theorem sizeOf_lt_of_mem_childrenOf {c n : Node} (hc : c ∈ childrenOf n) :
    sizeOf c < sizeOf n := by
  have h1 : sizeOf c < sizeOf (childrenOf n) := List.sizeOf_lt_of_mem hc
  have h2 := sizeOf_childrenOf_le n
  omega

theorem mem_subnodesList_iff : ∀ ns : List Node, ∀ m : Node,
    m ∈ subnodesList ns ↔ ∃ n ∈ ns, m ∈ subnodes n := by
  intro ns m
  induction ns with
  | nil => simp [subnodesList]
  | cons n ns ih => simp [subnodesList_cons, List.mem_append, ih]

theorem subnodes_trans : ∀ n : Node, ∀ m ∈ subnodes n, ∀ k ∈ subnodes m,
    k ∈ subnodes n := by
  have main : ∀ N : Nat, ∀ n : Node, sizeOf n ≤ N → ∀ m ∈ subnodes n, ∀ k ∈ subnodes m,
      k ∈ subnodes n := by
    intro N
    induction N with
    | zero =>
      intro n hn
      cases n <;> simp at hn
    | succ N ih =>
      intro n hn m hm k hk
      rw [subnodes_eq] at hm
      rcases List.mem_cons.mp hm with h | h
      · subst h; exact hk
      · obtain ⟨c, hc, hmc⟩ := (mem_subnodesList_iff _ _).mp h
        have hsz : sizeOf c < sizeOf n := sizeOf_lt_of_mem_childrenOf hc
        have hkc : k ∈ subnodes c := ih c (by omega) m hmc k hk
        rw [subnodes_eq]
        exact List.mem_cons.mpr (Or.inr ((subnodes_subset_of_mem _ c hc) hkc))
  intro n
  exact main (sizeOf n) n (le_refl _)

theorem svnList_nil : svnList [] = true := by
  simp [svnList, subnodesList]

theorem svnList_cons (n : Node) (ns : List Node) :
    svnList (n :: ns) = (svn n && svnList ns) := by
  simp [svnList, svn, subnodesList_cons]

theorem svnList_append (ns ms : List Node) :
    svnList (ns ++ ms) = (svnList ns && svnList ms) := by
  simp [svnList, subnodesList_append]

theorem svn_eq_local (n : Node) :
    svn n = (localSvn n && svnList (childrenOf n)) := by
  simp [svn, svnList, subnodes_eq]

theorem svn_of_mem_subnodes {n m : Node} (hs : svn n = true) (hm : m ∈ subnodes n) :
    svn m = true := by
  simp only [svn, List.all_eq_true] at hs ⊢
  intro k hk
  exact hs k (subnodes_trans n m hm k hk)

theorem svnList_mem {ns : List Node} {c : Node} (hs : svnList ns = true) (hc : c ∈ ns) :
    svn c = true := by
  simp only [svnList, List.all_eq_true] at hs
  simp only [svn, List.all_eq_true]
  intro k hk
  exact hs k ((subnodes_subset_of_mem ns c hc) hk)

theorem goodList_nil : goodList [] = true := by
  simp [goodList, subnodesList]

theorem goodList_cons (n : Node) (ns : List Node) :
    goodList (n :: ns) = (good n && goodList ns) := by
  simp [goodList, good, subnodesList_cons]

theorem goodList_append (ns ms : List Node) :
    goodList (ns ++ ms) = (goodList ns && goodList ms) := by
  simp [goodList, subnodesList_append]

theorem good_eq_local (n : Node) :
    good n = (localGood n && goodList (childrenOf n)) := by
  simp [good, goodList, subnodes_eq]

theorem goodList_mem {ns : List Node} {c : Node} (hs : goodList ns = true) (hc : c ∈ ns) :
    good c = true := by
  simp only [goodList, List.all_eq_true] at hs
  simp only [good, List.all_eq_true]
  intro k hk
  exact hs k ((subnodes_subset_of_mem ns c hc) hk)

theorem countFnList_nil : countFnList [] = 0 := by
  simp [countFnList, subnodesList]

theorem countFnList_cons (n : Node) (ns : List Node) :
    countFnList (n :: ns) = countFn n + countFnList ns := by
  simp [countFnList, countFn, subnodesList_cons, List.countP_append]

theorem countFnList_append (ns ms : List Node) :
    countFnList (ns ++ ms) = countFnList ns + countFnList ms := by
  simp [countFnList, subnodesList_append, List.countP_append]

theorem countFn_eq_local (n : Node) :
    countFn n = (if n.kind = "footnote" then 1 else 0) + countFnList (childrenOf n) := by
  rw [countFn, countFnList, subnodes_eq]
  simp [List.countP_cons]
  by_cases hk : n.kind = "footnote" <;> simp [hk] <;> omega

theorem countFnList_zero_mem : ∀ ns : List Node, countFnList ns = 0 →
    ∀ c ∈ ns, countFn c = 0 := by
  intro ns
  induction ns with
  | nil => intro _ c hc; simp at hc
  | cons x xs ih =>
    intro hz c hc
    rw [countFnList_cons] at hz
    rcases List.mem_cons.mp hc with h | h
    · subst h; omega
    · exact ih (by omega) c h

theorem fnFree_children {n : Node} (hf : fnFree n = true) :
    fnFreeList (childrenOf n) = true := by
  simp only [fnFree, decide_eq_true_eq, countFn_eq_local] at hf
  have hc : countFnList (childrenOf n) = 0 := by omega
  simp only [fnFreeList, List.all_eq_true]
  intro c hcm
  simp only [fnFree, decide_eq_true_eq]
  exact countFnList_zero_mem _ hc c hcm

/-! ### The allocation invariant -/

theorem allocOk_nil (st : List FootnoteRecord) : allocOk st [] := by
  intro j hj
  simp at hj

theorem allocOk_single (st : List FootnoteRecord) (cs : List Node) :
    allocOk st [⟨allocId (st.map (fun r => r.identifier)), cs⟩] := by
  intro j hj
  simp at hj
  subst hj
  simp [List.get]

theorem allocOk_cons {st : List FootnoteRecord} {r : FootnoteRecord}
    {rest : List FootnoteRecord}
    (h1 : r.identifier = allocId (st.map (fun x => x.identifier)))
    (h2 : allocOk (st ++ [r]) rest) : allocOk st (r :: rest) := by
  intro j hj
  match j with
  | 0 => simpa [List.get] using h1
  | j' + 1 =>
    have hj' : j' < rest.length := by simpa using hj
    have := h2 j' hj'
    simpa [List.get, List.append_assoc] using this

theorem allocOk_cons_inv {st : List FootnoteRecord} {r : FootnoteRecord}
    {rest : List FootnoteRecord} (h : allocOk st (r :: rest)) :
    r.identifier = allocId (st.map (fun x => x.identifier)) ∧
      allocOk (st ++ [r]) rest := by
  constructor
  · simpa [List.get] using h 0 (by simp)
  · intro j hj
    have := h (j + 1) (by simpa using Nat.succ_lt_succ hj)
    simpa [List.get, List.append_assoc] using this

theorem allocOk_append {st : List FootnoteRecord} {new1 new2 : List FootnoteRecord}
    (h1 : allocOk st new1) (h2 : allocOk (st ++ new1) new2) :
    allocOk st (new1 ++ new2) := by
  induction new1 generalizing st with
  | nil => simpa using h2
  | cons r rest ih =>
    obtain ⟨ha, hb⟩ := allocOk_cons_inv h1
    refine allocOk_cons ha (ih hb ?_)
    simpa [List.append_assoc] using h2

theorem allocOk_nodup {st : List FootnoteRecord} : ∀ new : List FootnoteRecord,
    allocOk st new → (st.map (fun r => r.identifier)).Nodup →
    ((st ++ new).map (fun r => r.identifier)).Nodup := by
  intro new
  induction new generalizing st with
  | nil => intro _ hnd; simpa using hnd
  | cons r rest ih =>
    intro h hnd
    obtain ⟨ha, hb⟩ := allocOk_cons_inv h
    have hfresh : r.identifier ∉ st.map (fun x => x.identifier) := by
      rw [ha]; exact allocId_not_mem _
    have hnd2 : ((st ++ [r]).map (fun x => x.identifier)).Nodup := by
      simp only [List.map_append, List.map_cons, List.map_nil]
      rw [List.nodup_append]
      exact ⟨hnd, by simp, by simpa using hfresh⟩
    have := ih hb hnd2
    simpa [List.append_assoc] using this

theorem allocOk_smallestUnused {st : List FootnoteRecord} {new : List FootnoteRecord}
    (h : allocOk st new) :
    ∀ j (hj : j < new.length),
      smallestUnused ((st ++ new.take j).map (fun r => r.identifier))
        (new.get ⟨j, hj⟩).identifier := by
  intro j hj
  rw [h j hj]
  obtain ⟨k, hk1, hk2, hk3, hk4⟩ := allocId_spec
    ((st ++ new.take j).map (fun r => r.identifier))
  exact ⟨k, hk1, hk2, hk2 ▸ hk3, hk4⟩

/-! ### Dispatch-count lemmas -/

theorem isTableRowNode_inv {r : Node} (hr : isTableRowNode r = true) :
    ∃ cells, r = Node.tableRow cells := by
  cases r <;> simp [isTableRowNode] at hr ⊢

theorem isTableCellNode_inv {c : Node} (hc : isTableCellNode c = true) :
    ∃ ns, c = Node.tableCell ns := by
  cases c <;> simp [isTableCellNode] at hc ⊢

theorem countFnList_take_le : ∀ (l : List Node) (k : Nat),
    countFnList (l.take k) ≤ countFnList l := by
  intro l k
  conv_rhs => rw [← List.take_append_drop k l]
  rw [countFnList_append]
  omega

theorem countFnList_zero_of_fnFreeList {ns : List Node}
    (hf : fnFreeList ns = true) : countFnList ns = 0 := by
  induction ns with
  | nil => simp [countFnList_nil]
  | cons x xs ih =>
    simp only [fnFreeList, List.all_cons, Bool.and_eq_true] at hf
    rw [countFnList_cons]
    have hx : countFn x = 0 := by
      have := hf.1
      simpa [fnFree] using this
    have := ih (by simpa [fnFreeList] using hf.2)
    omega

theorem take_succ_get? {α : Type} (l : List α) (n : Nat) :
    l.take (n + 1) = l.take n ++ (l.get? n).toList := by
  rw [List.take_succ, List.get?_eq_getElem?]

theorem fnCountRows_succ (alignLen : Nat) (rows : List Node) (i' : Nat) :
    fnCountRows alignLen rows (i' + 1) =
      (match rows.get? i' with
        | some row => fnCountCells (childrenOf row) alignLen
        | none => 0) + fnCountRows alignLen rows i' := by
  rw [fnCountRows]
  congr 1
  split
  · rename_i row heq
    rw [heq]
  · rename_i heq
    rw [heq]

theorem fnCountCells_succ (cells : List Node) (q : Nat) :
    fnCountCells cells (q + 1) =
      (match cells.get? q with
        | some cell => fnCountList (looseOf cell) (childrenOf cell)
        | none => 0) + fnCountCells cells q := by
  rw [fnCountCells]
  congr 1
  split
  · rename_i cell heq
    rw [heq]
  · rename_i heq
    rw [heq]

theorem fnCount_le_countFn : ∀ (pl : Bool) (node : Node),
    fnCount pl node ≤ countFn node := by
  apply fnCount.induct
    (fun pl n => fnCount pl n ≤ countFn n)
    (fun alignLen rows i => fnCountRows alignLen rows i ≤ countFnList (rows.take i))
    (fun cells p => fnCountCells cells p ≤ countFnList (cells.take p))
    (fun pl ns => fnCountList pl ns ≤ countFnList ns)
  -- paragraph
  · intro pl cs ih
    simpa [fnCount, countFn_eq_local, Node.kind, childrenOf] using ih
  -- heading
  · intro pl d cs ih
    simpa [fnCount, countFn_eq_local, Node.kind, childrenOf] using ih
  -- blockquote
  · intro pl cs ih
    simpa [fnCount, countFn_eq_local, Node.kind, childrenOf] using ih
  -- list
  · intro pl o s l cs ih
    simpa [fnCount, countFn_eq_local, Node.kind, childrenOf] using ih
  -- listItem single (tight unwrap)
  · intro pl attrs c hcond ih
    have h1 : countFnList (childrenOf c) ≤ countFn c := by
      rw [countFn_eq_local]; omega
    have h2 : countFn (Node.listItem attrs [c]) = countFn c := by
      rw [countFn_eq_local]
      simp [Node.kind, childrenOf, countFnList_cons, countFnList_nil]
    rw [h2]
    calc fnCount pl (Node.listItem attrs [c])
        = fnCountList (looseOf c) (childrenOf c) := by simp [fnCount, hcond]
      _ ≤ countFnList (childrenOf c) := ih
      _ ≤ countFn c := h1
  -- listItem single (loose / leaf child)
  · intro pl attrs c hcond ih
    have h2 : countFn (Node.listItem attrs [c]) = countFnList [c] := by
      rw [countFn_eq_local]; simp [Node.kind, childrenOf]
    rw [h2]
    calc fnCount pl (Node.listItem attrs [c])
        = fnCountList false [c] := by
          simp only [fnCount]
          rw [if_neg hcond]
      _ ≤ countFnList [c] := ih
  -- listItem []
  · intro pl attrs
    simp [fnCount]
  -- listItem multi
  · intro pl attrs c1 c2 rest ih
    have h2 : countFn (Node.listItem attrs (c1 :: c2 :: rest)) =
        countFnList (c1 :: c2 :: rest) := by
      rw [countFn_eq_local]; simp [Node.kind, childrenOf]
    rw [h2]
    calc fnCount pl (Node.listItem attrs (c1 :: c2 :: rest))
        = fnCountList false (c1 :: c2 :: rest) := by simp [fnCount]
      _ ≤ countFnList (c1 :: c2 :: rest) := ih
  -- table
  · intro pl align rows ih
    have h2 : countFn (Node.table align rows) = countFnList rows := by
      rw [countFn_eq_local]; simp [Node.kind, childrenOf]
    rw [h2]
    calc fnCount pl (Node.table align rows)
        = fnCountRows align.length rows rows.length := by simp [fnCount]
      _ ≤ countFnList (rows.take rows.length) := ih
      _ = countFnList rows := by simp
  -- strong
  · intro pl cs ih
    simpa [fnCount, countFn_eq_local, Node.kind, childrenOf] using ih
  -- emphasis
  · intro pl cs ih
    simpa [fnCount, countFn_eq_local, Node.kind, childrenOf] using ih
  -- delete
  · intro pl cs ih
    simpa [fnCount, countFn_eq_local, Node.kind, childrenOf] using ih
  -- link
  · intro pl href t a cs ih
    simpa [fnCount, countFn_eq_local, Node.kind, childrenOf] using ih
  -- linkReference
  · intro pl i r cs ih
    simpa [fnCount, countFn_eq_local, Node.kind, childrenOf] using ih
  -- footnote
  · intro pl cs
    rw [countFn_eq_local]
    simp [fnCount, Node.kind]
  -- catchall
  · intro pl node h1 h2 h3 h4 h5 h6 h7 h8 h9 h10 h11 h12
    cases node with
    | paragraph cs => exact absurd rfl (h1 cs)
    | heading d cs => exact absurd rfl (h2 d cs)
    | blockquote cs => exact absurd rfl (h3 cs)
    | list o s l cs => exact absurd rfl (h4 o s l cs)
    | listItem a cs => exact absurd rfl (h5 a cs)
    | table a r => exact absurd rfl (h6 a r)
    | strong cs => exact absurd rfl (h7 cs)
    | emphasis cs => exact absurd rfl (h8 cs)
    | delete cs => exact absurd rfl (h9 cs)
    | link hr t a cs => exact absurd rfl (h10 hr t a cs)
    | linkReference i r cs => exact absurd rfl (h11 i r cs)
    | footnote cs => exact absurd rfl (h12 cs)
    | tableRow cs => simp [fnCount]
    | tableCell cs => simp [fnCount]
    | footnoteDefinition i cs => simp [fnCount]
    | _ => simp [fnCount]
  -- rowsGo 0
  · intro alignLen rows
    simp [fnCountRows, countFnList_nil]
  -- rowsGo succ
  · intro alignLen rows i' ih3 ih2
    rw [fnCountRows]
    rw [take_succ_get?]
    rw [countFnList_append]
    cases hrow : rows.get? i' with
    | none => simp [hrow, countFnList_nil]; omega
    | some row =>
      have hr := ih3 row hrow
      have hle : countFnList ((childrenOf row).take alignLen) ≤ countFn row := by
        have := countFnList_take_le (childrenOf row) alignLen
        rw [countFn_eq_local]
        omega
      simp only [hrow, Option.toList]
      have hone : countFnList [row] = countFn row := by
        rw [countFnList_cons, countFnList_nil]; omega
      omega
  -- cellsGo 0
  · intro cells
    simp [fnCountCells, countFnList_nil]
  -- cellsGo succ
  · intro cells q ih4 ih3
    rw [fnCountCells]
    rw [take_succ_get?]
    rw [countFnList_append]
    cases hcell : cells.get? q with
    | none => simp [hcell, countFnList_nil]; omega
    | some cell =>
      have hc := ih4 cell hcell
      have hle : countFnList (childrenOf cell) ≤ countFn cell := by
        rw [countFn_eq_local]; omega
      simp only [hcell, Option.toList]
      have hone : countFnList [cell] = countFn cell := by
        rw [countFnList_cons, countFnList_nil]; omega
      omega
  -- fnCountList nil
  · intro pl
    simp [fnCountList, countFnList_nil]
  -- fnCountList cons
  · intro pl n rest ih1 ih4
    rw [fnCountList, countFnList_cons]
    omega

theorem listItem_single_facts {attrs : List (String × String)} {c : Node}
    (hs : svn (Node.listItem attrs [c]) = true)
    (hg : good (Node.listItem attrs [c]) = true) :
    svn c = true ∧ good c = true ∧
    ((childrenOf c).all fun x => ! isRowOrCell x) = true ∧
    countFn c = countFnList (childrenOf c) := by
  have hsvnc : svn c = true := by
    rw [svn_eq_local] at hs
    simp only [Bool.and_eq_true] at hs
    exact svnList_mem hs.2 (by simp [childrenOf])
  have hgoodc : good c = true := by
    rw [good_eq_local] at hg
    simp only [Bool.and_eq_true] at hg
    exact goodList_mem hg.2 (by simp [childrenOf])
  refine ⟨hsvnc, hgoodc, ?_, ?_⟩ <;>
  · rw [svn_eq_local] at hs
    rw [good_eq_local] at hg
    simp only [localSvn, localGood, childrenOf, Bool.and_eq_true] at hs hg
    rw [svn_eq_local] at hsvnc
    simp only [Bool.and_eq_true] at hsvnc
    rcases c <;>
      simp_all [localSvn, localGood, childrenOf, Node.kind, isRowOrCell,
        countFn_eq_local, countFnList_nil]

theorem fnCount_eq_countFn : ∀ (pl : Bool) (node : Node),
    svn node = true → good node = true → isRowOrCell node = false →
    fnCount pl node = countFn node := by
  apply fnCount.induct
    (fun pl n => svn n = true → good n = true → isRowOrCell n = false →
      fnCount pl n = countFn n)
    (fun alignLen rows i => svnList rows = true → goodList rows = true →
      (rows.all isTableRowNode) = true →
      (rows.all fun r => (childrenOf r).length ≤ alignLen) = true →
      i ≤ rows.length →
      fnCountRows alignLen rows i = countFnList (rows.take i))
    (fun cells p => svnList cells = true → goodList cells = true →
      (cells.all isTableCellNode) = true →
      fnCountCells cells p = countFnList (cells.take p))
    (fun pl ns => svnList ns = true → goodList ns = true →
      (ns.all fun c => ! isRowOrCell c) = true →
      fnCountList pl ns = countFnList ns)
  -- paragraph
  · intro pl cs ih hs hg _
    rw [svn_eq_local] at hs
    rw [good_eq_local] at hg
    simp only [localSvn, localGood, childrenOf, Bool.and_eq_true] at hs hg
    rw [countFn_eq_local]
    simp only [fnCount, Node.kind, childrenOf]
    rw [ih hs.2 hg.2 hs.1]
    simp
  -- heading
  · intro pl d cs ih hs hg _
    rw [svn_eq_local] at hs
    rw [good_eq_local] at hg
    simp only [localSvn, localGood, childrenOf, Bool.and_eq_true] at hs hg
    rw [countFn_eq_local]
    simp only [fnCount, Node.kind, childrenOf]
    rw [ih hs.2 hg.2 hs.1]
    simp
  -- blockquote
  · intro pl cs ih hs hg _
    rw [svn_eq_local] at hs
    rw [good_eq_local] at hg
    simp only [localSvn, localGood, childrenOf, Bool.and_eq_true] at hs hg
    rw [countFn_eq_local]
    simp only [fnCount, Node.kind, childrenOf]
    rw [ih hs.2 hg.2 hs.1]
    simp
  -- list
  · intro pl o s l cs ih hs hg _
    rw [svn_eq_local] at hs
    rw [good_eq_local] at hg
    simp only [localSvn, localGood, childrenOf, Bool.and_eq_true] at hs hg
    rw [countFn_eq_local]
    simp only [fnCount, Node.kind, childrenOf]
    rw [ih hs.2 hg.2 hs.1]
    simp
  -- listItem single (tight unwrap)
  · intro pl attrs c hcond ih hs hg _
    obtain ⟨hsvnc, hgoodc, hchildren, hcc⟩ := listItem_single_facts hs hg
    have hsvnch : svnList (childrenOf c) = true := by
      rw [svn_eq_local] at hsvnc
      simp only [Bool.and_eq_true] at hsvnc
      exact hsvnc.2
    have hgoodch : goodList (childrenOf c) = true := by
      rw [good_eq_local] at hgoodc
      simp only [Bool.and_eq_true] at hgoodc
      exact hgoodc.2
    have hlhs : fnCount pl (Node.listItem attrs [c]) =
        fnCountList (looseOf c) (childrenOf c) := by
      simp only [fnCount]
      rw [if_pos hcond]
    have hrhs : countFn (Node.listItem attrs [c]) = countFn c := by
      rw [countFn_eq_local]
      simp [Node.kind, childrenOf, countFnList_cons, countFnList_nil]
    rw [hlhs, hrhs, hcc, ih hsvnch hgoodch hchildren]
  -- listItem single (loose / leaf child)
  · intro pl attrs c hcond ih hs hg _
    rw [svn_eq_local] at hs
    rw [good_eq_local] at hg
    simp only [localSvn, localGood, childrenOf, Bool.and_eq_true] at hs hg
    have hlhs : fnCount pl (Node.listItem attrs [c]) = fnCountList false [c] := by
      simp only [fnCount]
      rw [if_neg hcond]
    have hrhs : countFn (Node.listItem attrs [c]) = countFnList [c] := by
      rw [countFn_eq_local]
      simp [Node.kind, childrenOf]
    rw [hlhs, hrhs]
    exact ih hs.2 hg.2 hs.1.2
  -- listItem []
  · intro pl attrs _ _ _
    rw [countFn_eq_local]
    simp [fnCount, Node.kind, childrenOf, countFnList_nil]
  -- listItem multi
  · intro pl attrs c1 c2 rest ih hs hg _
    rw [svn_eq_local] at hs
    rw [good_eq_local] at hg
    simp only [localSvn, localGood, childrenOf, Bool.and_eq_true] at hs hg
    have hlhs : fnCount pl (Node.listItem attrs (c1 :: c2 :: rest)) =
        fnCountList false (c1 :: c2 :: rest) := by
      simp [fnCount]
    have hrhs : countFn (Node.listItem attrs (c1 :: c2 :: rest)) =
        countFnList (c1 :: c2 :: rest) := by
      rw [countFn_eq_local]
      simp [Node.kind, childrenOf]
    rw [hlhs, hrhs]
    exact ih hs.2 hg.2 hs.1.2
  -- table
  · intro pl align rows ih hs hg _
    rw [svn_eq_local] at hs
    rw [good_eq_local] at hg
    simp only [localSvn, localGood, childrenOf, Bool.and_eq_true] at hs hg
    have hlhs : fnCount pl (Node.table align rows) =
        fnCountRows align.length rows rows.length := by
      simp [fnCount]
    have hrhs : countFn (Node.table align rows) = countFnList rows := by
      rw [countFn_eq_local]
      simp [Node.kind, childrenOf]
    rw [hlhs, hrhs, ih hs.2 hg.2 hs.1 hg.1 (le_refl _)]
    simp
  -- strong
  · intro pl cs ih hs hg _
    rw [svn_eq_local] at hs
    rw [good_eq_local] at hg
    simp only [localSvn, localGood, childrenOf, Bool.and_eq_true] at hs hg
    rw [countFn_eq_local]
    simp only [fnCount, Node.kind, childrenOf]
    rw [ih hs.2 hg.2 hs.1]
    simp
  -- emphasis
  · intro pl cs ih hs hg _
    rw [svn_eq_local] at hs
    rw [good_eq_local] at hg
    simp only [localSvn, localGood, childrenOf, Bool.and_eq_true] at hs hg
    rw [countFn_eq_local]
    simp only [fnCount, Node.kind, childrenOf]
    rw [ih hs.2 hg.2 hs.1]
    simp
  -- delete
  · intro pl cs ih hs hg _
    rw [svn_eq_local] at hs
    rw [good_eq_local] at hg
    simp only [localSvn, localGood, childrenOf, Bool.and_eq_true] at hs hg
    rw [countFn_eq_local]
    simp only [fnCount, Node.kind, childrenOf]
    rw [ih hs.2 hg.2 hs.1]
    simp
  -- link
  · intro pl href t a cs ih hs hg _
    rw [svn_eq_local] at hs
    rw [good_eq_local] at hg
    simp only [localSvn, localGood, childrenOf, Bool.and_eq_true] at hs hg
    rw [countFn_eq_local]
    simp only [fnCount, Node.kind, childrenOf]
    rw [ih hs.2 hg.2 hs.1]
    simp
  -- linkReference
  · intro pl i r cs ih hs hg _
    rw [svn_eq_local] at hs
    rw [good_eq_local] at hg
    simp only [localSvn, localGood, childrenOf, Bool.and_eq_true] at hs hg
    rw [countFn_eq_local]
    simp only [fnCount, Node.kind, childrenOf]
    rw [ih hs.2 hg.2 hs.1]
    simp
  -- footnote
  · intro pl cs hs hg _
    rw [good_eq_local] at hg
    simp only [localGood, Bool.and_eq_true] at hg
    rw [countFn_eq_local]
    have hz := @countFnList_zero_of_fnFreeList cs
      (by simpa [fnFreeList] using hg.1)
    simp [fnCount, Node.kind, childrenOf, hz]
  -- catchall
  · intro pl node h1 h2 h3 h4 h5 h6 h7 h8 h9 h10 h11 h12 hs hg hnr
    cases node with
    | paragraph cs => exact absurd rfl (h1 cs)
    | heading d cs => exact absurd rfl (h2 d cs)
    | blockquote cs => exact absurd rfl (h3 cs)
    | list o s l cs => exact absurd rfl (h4 o s l cs)
    | listItem a cs => exact absurd rfl (h5 a cs)
    | table a r => exact absurd rfl (h6 a r)
    | strong cs => exact absurd rfl (h7 cs)
    | emphasis cs => exact absurd rfl (h8 cs)
    | delete cs => exact absurd rfl (h9 cs)
    | link hr t a cs => exact absurd rfl (h10 hr t a cs)
    | linkReference i r cs => exact absurd rfl (h11 i r cs)
    | footnote cs => exact absurd rfl (h12 cs)
    | tableRow cs => simp [isRowOrCell] at hnr
    | tableCell cs => simp [isRowOrCell] at hnr
    | footnoteDefinition i cs =>
      rw [good_eq_local] at hg
      simp only [localGood, childrenOf, Bool.and_eq_true] at hg
      rw [countFn_eq_local]
      have hz := @countFnList_zero_of_fnFreeList cs
        (by simpa [fnFreeList] using hg.1)
      simp [fnCount, Node.kind, childrenOf, hz]
    | code l v => rw [countFn_eq_local]; simp [fnCount, Node.kind, childrenOf, countFnList_nil]
    | html v => rw [countFn_eq_local]; simp [fnCount, Node.kind, childrenOf, countFnList_nil]
    | horizontalRule => rw [countFn_eq_local]; simp [fnCount, Node.kind, childrenOf, countFnList_nil]
    | inlineCode v => rw [countFn_eq_local]; simp [fnCount, Node.kind, childrenOf, countFnList_nil]
    | hardBreak => rw [countFn_eq_local]; simp [fnCount, Node.kind, childrenOf, countFnList_nil]
    | image s t a => rw [countFn_eq_local]; simp [fnCount, Node.kind, childrenOf, countFnList_nil]
    | footnoteReference i => rw [countFn_eq_local]; simp [fnCount, Node.kind, childrenOf, countFnList_nil]
    | imageReference i r a => rw [countFn_eq_local]; simp [fnCount, Node.kind, childrenOf, countFnList_nil]
    | text v => rw [countFn_eq_local]; simp [fnCount, Node.kind, childrenOf, countFnList_nil]
    | escape v => rw [countFn_eq_local]; simp [fnCount, Node.kind, childrenOf, countFnList_nil]
    | definition i l t => rw [countFn_eq_local]; simp [fnCount, Node.kind, childrenOf, countFnList_nil]
    | yaml v => rw [countFn_eq_local]; simp [fnCount, Node.kind, childrenOf, countFnList_nil]
    | unknown t =>
      rw [svn_eq_local] at hs
      simp [localSvn] at hs
  -- rowsGo 0
  · intro alignLen rows _ _ _ _ _
    simp [fnCountRows, countFnList_nil]
  -- rowsGo succ
  · intro alignLen rows i' ih3 ih2 hs hg hrowkinds hlen hle
    have hi : i' < rows.length := by omega
    cases hrow : rows.get? i' with
    | none =>
      rw [List.get?_eq_getElem?] at hrow
      simp only [List.getElem?_eq_none_iff] at hrow
      omega
    | some row =>
      have hmem : row ∈ rows := List.get?_mem hrow
      have hsvnrow : svn row = true := svnList_mem hs hmem
      have hgoodrow : good row = true := goodList_mem hg hmem
      have hkind : isTableRowNode row = true := by
        simp only [List.all_eq_true] at hrowkinds
        exact hrowkinds row hmem
      have hlenrow : (childrenOf row).length ≤ alignLen := by
        simp only [List.all_eq_true, decide_eq_true_eq] at hlen
        exact hlen row hmem
      obtain ⟨cells, rfl⟩ := isTableRowNode_inv hkind
      have hcellkinds : (cells.all isTableCellNode) = true := by
        rw [svn_eq_local] at hsvnrow
        simp only [Bool.and_eq_true] at hsvnrow
        have := hsvnrow.1
        simp only [localSvn, List.all_eq_true] at this
        simp only [List.all_eq_true]
        intro x hx
        have hh := this x hx
        cases x <;> simp [isTableCellNode] at hh ⊢
      have hsvnch : svnList cells = true := by
        rw [svn_eq_local] at hsvnrow
        simp only [Bool.and_eq_true] at hsvnrow
        simpa [childrenOf] using hsvnrow.2
      have hgoodch : goodList cells = true := by
        rw [good_eq_local] at hgoodrow
        simp only [Bool.and_eq_true] at hgoodrow
        simpa [childrenOf] using hgoodrow.2
      have hcalc := ih3 (Node.tableRow cells) hrow
        (by simpa [childrenOf] using hsvnch)
        (by simpa [childrenOf] using hgoodch)
        (by simpa [childrenOf] using hcellkinds)
      have htake : (childrenOf (Node.tableRow cells)).take alignLen =
          childrenOf (Node.tableRow cells) := List.take_of_length_le hlenrow
      rw [htake] at hcalc
      have hcnt : countFnList [Node.tableRow cells] =
          countFnList (childrenOf (Node.tableRow cells)) := by
        rw [countFnList_cons, countFnList_nil, countFn_eq_local]
        simp [Node.kind]
      rw [fnCountRows_succ]
      simp only [hrow]
      rw [take_succ_get?, countFnList_append]
      simp only [hrow, Option.toList]
      rw [hcalc, ih2 hs hg hrowkinds hlen (by omega)]
      rw [hcnt]
      omega
  -- cellsGo 0
  · intro cells _ _ _
    simp [fnCountCells, countFnList_nil]
  -- cellsGo succ
  · intro cells q ih4 ih3 hs hg hkinds
    cases hcell : cells.get? q with
    | none =>
      rw [fnCountCells_succ]
      simp only [hcell]
      rw [take_succ_get?, countFnList_append]
      rw [List.get?_eq_getElem?] at hcell
      simp [hcell, countFnList_nil]
      exact ih3 hs hg hkinds
    | some cell =>
      have hmem : cell ∈ cells := List.get?_mem hcell
      have hsvncell : svn cell = true := svnList_mem hs hmem
      have hgoodcell : good cell = true := goodList_mem hg hmem
      have hkind : isTableCellNode cell = true := by
        simp only [List.all_eq_true] at hkinds
        exact hkinds cell hmem
      obtain ⟨ns, rfl⟩ := isTableCellNode_inv hkind
      have hch : ((childrenOf (Node.tableCell ns)).all fun x => ! isRowOrCell x) = true := by
        rw [svn_eq_local] at hsvncell
        simp only [Bool.and_eq_true] at hsvncell
        simpa [localSvn, childrenOf] using hsvncell.1
      have hsvnch : svnList (childrenOf (Node.tableCell ns)) = true := by
        rw [svn_eq_local] at hsvncell
        simp only [Bool.and_eq_true] at hsvncell
        exact hsvncell.2
      have hgoodch : goodList (childrenOf (Node.tableCell ns)) = true := by
        rw [good_eq_local] at hgoodcell
        simp only [Bool.and_eq_true] at hgoodcell
        exact hgoodcell.2
      have hm4 := ih4 (Node.tableCell ns) hcell hsvnch hgoodch hch
      have hcnt : countFnList [Node.tableCell ns] =
          countFnList (childrenOf (Node.tableCell ns)) := by
        rw [countFnList_cons, countFnList_nil, countFn_eq_local]
        simp [Node.kind]
      rw [fnCountCells_succ]
      simp only [hcell]
      rw [take_succ_get?, countFnList_append]
      simp only [hcell, Option.toList]
      rw [hm4, ih3 hs hg hkinds, hcnt]
      omega
  -- fnCountList nil
  · intro pl _ _ _
    simp [fnCountList, countFnList_nil]
  -- fnCountList cons
  · intro pl n rest ih1 ih4 hs hg hnr
    rw [svnList_cons] at hs
    rw [goodList_cons] at hg
    simp only [List.all_cons, Bool.and_eq_true] at hs hg hnr
    rw [fnCountList, countFnList_cons]
    rw [ih1 hs.1 hg.1 (by simpa using hnr.1)]
    rw [ih4 hs.2 hg.2 (by simpa using hnr.2)]


theorem stepOk_nil (st : List FootnoteRecord) (cnt : Nat) (g : Bool)
    (hc : cnt = 0) : stepOk st [] cnt g := by
  subst hc
  exact ⟨rfl, allocOk_nil st, by simp, by simp⟩

theorem stepOk_mono {st new : List FootnoteRecord} {cnt cnt' : Nat} {g g' : Bool}
    (hst : stepOk st new cnt g) (hc : cnt' = cnt) (hg : g' = true → g = true) :
    stepOk st new cnt' g' := by
  obtain ⟨h1, h2, h3, h4⟩ := hst
  exact ⟨hc ▸ h1, h2, h3, fun hgt => h4 (hg hgt)⟩

theorem stepOk_append {st new1 new2 : List FootnoteRecord} {c1 c2 : Nat}
    {g1 g2 g : Bool} (h1 : stepOk st new1 c1 g1)
    (h2 : stepOk (st ++ new1) new2 c2 g2)
    (hg1 : g = true → g1 = true) (hg2 : g = true → g2 = true) :
    stepOk st (new1 ++ new2) (c1 + c2) g := by
  obtain ⟨a1, a2, a3, a4⟩ := h1
  obtain ⟨b1, b2, b3, b4⟩ := h2
  refine ⟨by simp [a1, b1], allocOk_append a2 b2, ?_, ?_⟩
  · intro r hr
    rcases List.mem_append.mp hr with hh | hh
    · exact a3 r hh
    · exact b3 r hh
  · intro hgt r hr
    rcases List.mem_append.mp hr with hh | hh
    · exact a4 (hg1 hgt) r hh
    · exact b4 (hg2 hgt) r hh

theorem rowsGo_succ (ctx : Context) (align : List (Option String))
    (rows : List Node) (i' : Nat) (st : List FootnoteRecord) :
    rowsGo ctx align rows (i' + 1) st =
      match rows.get? i' with
      | some row =>
        (match cellsGo ctx align (i' = 0) (childrenOf row) align.length st with
          | .error e => .error e
          | .ok (cells, st1) =>
            match rowsGo ctx align rows i' st1 with
            | .error e => .error e
            | .ok (rest, st2) =>
              .ok (rest ++ [h "tr" [] (String.intercalate "\n" cells) true], st2))
      | none =>
        (match rowsGo ctx align rows i' st with
          | .error e => .error e
          | .ok (rest, st2) =>
            .ok (rest ++ [h "tr" []
              (String.intercalate "\n" (emptyCells align (i' = 0))) true], st2)) := by
  rw [rowsGo]
  split
  · rename_i row heq
    rw [heq]
    try rfl
  · rename_i heq
    rw [heq]
    try rfl


theorem cellsGo_succ (ctx : Context) (align : List (Option String)) (isHead : Bool)
    (cells : List Node) (q : Nat) (st : List FootnoteRecord) :
    cellsGo ctx align isHead cells (q + 1) st =
      match cells.get? q with
      | some cell =>
        (match all ctx (looseOf cell) none (childrenOf cell) st with
          | .error e => .error e
          | .ok (vs, st1) =>
            match cellsGo ctx align isHead cells q st1 with
            | .error e => .error e
            | .ok (rest, st2) =>
              .ok (rest ++ [h (if isHead then "th" else "td")
                [("align", (align.get? q).getD none)]
                (String.intercalate "\n" vs) false], st2))
      | none =>
        (match cellsGo ctx align isHead cells q st with
          | .error e => .error e
          | .ok (rest, st2) =>
            .ok (rest ++ [h (if isHead then "th" else "td")
              [("align", (align.get? q).getD none)] "" false], st2)) := by
  rw [cellsGo]
  split
  · rename_i cell heq
    rw [heq]
    try rfl
  · rename_i heq
    rw [heq]
    try rfl


theorem allP_ok {ctx : Context} {pl : Bool} {prev : Option Node} {ns : List Node}
    {st : List FootnoteRecord} (ih : allP ctx pl prev ns st)
    (hs : svnList ns = true) (hnr : (ns.all fun c => ! isRowOrCell c) = true)
    {vs : List String} {st' : List FootnoteRecord}
    (hall : all ctx pl prev ns st = .ok (vs, st')) :
    ∃ new, st' = st ++ new ∧ stepOk st new (fnCountList pl ns) (goodList ns) := by
  obtain ⟨vs2, new, heq, hstep⟩ := ih hs hnr
  rw [hall] at heq
  injection heq with heq
  injection heq with h1 h2
  exact ⟨new, h2, hstep⟩

theorem allP_error {ctx : Context} {pl : Bool} {prev : Option Node} {ns : List Node}
    {st : List FootnoteRecord} (ih : allP ctx pl prev ns st)
    (hs : svnList ns = true) (hnr : (ns.all fun c => ! isRowOrCell c) = true)
    {e : String} (hall : all ctx pl prev ns st = .error e) : False := by
  obtain ⟨vs2, new, heq, _⟩ := ih hs hnr
  rw [hall] at heq
  exact Except.noConfusion heq

theorem visitP_ok {ctx : Context} {pl : Bool} {node : Node} {st : List FootnoteRecord}
    (ih : visitP ctx pl node st) (hs : svn node = true) (hnr : isRowOrCell node = false)
    {out : String} {st' : List FootnoteRecord}
    (hv : visit ctx pl node st = .ok (out, st')) :
    ∃ new, st' = st ++ new ∧ stepOk st new (fnCount pl node) (good node) := by
  obtain ⟨o2, new, heq, hstep⟩ := ih hs hnr
  rw [hv] at heq
  injection heq with heq
  injection heq with h1 h2
  exact ⟨new, h2, hstep⟩

theorem visitP_error {ctx : Context} {pl : Bool} {node : Node} {st : List FootnoteRecord}
    (ih : visitP ctx pl node st) (hs : svn node = true) (hnr : isRowOrCell node = false)
    {e : String} (hv : visit ctx pl node st = .error e) : False := by
  obtain ⟨o2, new, heq, _⟩ := ih hs hnr
  rw [hv] at heq
  exact Except.noConfusion heq

theorem rowsP_ok {ctx : Context} {align : List (Option String)} {rows : List Node}
    {i : Nat} {st : List FootnoteRecord} (ih : rowsP ctx align rows i st)
    (hs : svnList rows = true) (hk : (rows.all isTableRowNode) = true)
    {outs : List String} {st' : List FootnoteRecord}
    (hv : rowsGo ctx align rows i st = .ok (outs, st')) :
    ∃ new, st' = st ++ new ∧
      stepOk st new (fnCountRows align.length rows i) (goodList rows) := by
  obtain ⟨o2, new, heq, hstep⟩ := ih hs hk
  rw [hv] at heq
  injection heq with heq
  injection heq with h1 h2
  exact ⟨new, h2, hstep⟩

theorem rowsP_error {ctx : Context} {align : List (Option String)} {rows : List Node}
    {i : Nat} {st : List FootnoteRecord} (ih : rowsP ctx align rows i st)
    (hs : svnList rows = true) (hk : (rows.all isTableRowNode) = true)
    {e : String} (hv : rowsGo ctx align rows i st = .error e) : False := by
  obtain ⟨o2, new, heq, _⟩ := ih hs hk
  rw [hv] at heq
  exact Except.noConfusion heq

theorem cellsP_ok {ctx : Context} {align : List (Option String)} {isHead : Bool}
    {cells : List Node} {p : Nat} {st : List FootnoteRecord}
    (ih : cellsP ctx align isHead cells p st)
    (hs : svnList cells = true) (hk : (cells.all isTableCellNode) = true)
    {outs : List String} {st' : List FootnoteRecord}
    (hv : cellsGo ctx align isHead cells p st = .ok (outs, st')) :
    ∃ new, st' = st ++ new ∧
      stepOk st new (fnCountCells cells p) (goodList cells) := by
  obtain ⟨o2, new, heq, hstep⟩ := ih hs hk
  rw [hv] at heq
  injection heq with heq
  injection heq with h1 h2
  exact ⟨new, h2, hstep⟩

theorem cellsP_error {ctx : Context} {align : List (Option String)} {isHead : Bool}
    {cells : List Node} {p : Nat} {st : List FootnoteRecord}
    (ih : cellsP ctx align isHead cells p st)
    (hs : svnList cells = true) (hk : (cells.all isTableCellNode) = true)
    {e : String} (hv : cellsGo ctx align isHead cells p st = .error e) : False := by
  obtain ⟨o2, new, heq, _⟩ := ih hs hk
  rw [hv] at heq
  exact Except.noConfusion heq

theorem listItem_single_sub {attrs : List (String × String)} {c : Node}
    (hs : svn (Node.listItem attrs [c]) = true) :
    svnList (childrenOf c) = true ∧
      ((childrenOf c).all fun x => ! isRowOrCell x) = true := by
  rw [svn_eq_local] at hs
  simp only [Bool.and_eq_true] at hs
  obtain ⟨hls, hsl⟩ := hs
  have hsvnc : svn c = true := svnList_mem hsl (by simp [childrenOf])
  rw [svn_eq_local] at hsvnc
  simp only [Bool.and_eq_true] at hsvnc
  obtain ⟨hlc, hslc⟩ := hsvnc
  refine ⟨hslc, ?_⟩
  simp only [localSvn] at hls
  cases c <;> simp_all [localSvn, childrenOf, isRowOrCell]

theorem listItem_single_good {attrs : List (String × String)} {c : Node}
    (hg : good (Node.listItem attrs [c]) = true) :
    goodList (childrenOf c) = true := by
  rw [good_eq_local] at hg
  simp only [Bool.and_eq_true] at hg
  have hgc : good c = true := goodList_mem hg.2 (by simp [childrenOf])
  rw [good_eq_local] at hgc
  simp only [Bool.and_eq_true] at hgc
  exact hgc.2

theorem tableRow_sub {row : Node} (hsv : svn row = true)
    (hk : isTableRowNode row = true) :
    ∃ cells, row = Node.tableRow cells ∧ svnList (childrenOf row) = true ∧
      ((childrenOf row).all isTableCellNode) = true := by
  obtain ⟨cells, rfl⟩ := isTableRowNode_inv hk
  rw [svn_eq_local] at hsv
  simp only [Bool.and_eq_true] at hsv
  refine ⟨cells, rfl, hsv.2, ?_⟩
  have := hsv.1
  simp only [localSvn, List.all_eq_true] at this
  simp only [childrenOf, List.all_eq_true]
  intro x hx
  have hh := this x hx
  cases x <;> simp [isTableCellNode] at hh ⊢

theorem tableCell_sub {cell : Node} (hsv : svn cell = true)
    (hk : isTableCellNode cell = true) :
    svnList (childrenOf cell) = true ∧
      ((childrenOf cell).all fun x => ! isRowOrCell x) = true := by
  obtain ⟨ns, rfl⟩ := isTableCellNode_inv hk
  rw [svn_eq_local] at hsv
  simp only [Bool.and_eq_true] at hsv
  refine ⟨hsv.2, ?_⟩
  have := hsv.1
  simpa [localSvn, childrenOf] using this


theorem visitP_of {ctx : Context} {pl : Bool} {node : Node} {st : List FootnoteRecord}
    (new : List FootnoteRecord) {out : String}
    (hv : visit ctx pl node st = .ok (out, st ++ new))
    (hstep : stepOk st new (fnCount pl node) (good node)) :
    ∃ out new, visit ctx pl node st = .ok (out, st ++ new) ∧
      stepOk st new (fnCount pl node) (good node) :=
  ⟨out, new, hv, hstep⟩

theorem allP_of {ctx : Context} {pl : Bool} {prev : Option Node} {ns : List Node}
    {st : List FootnoteRecord} (new : List FootnoteRecord) {vs : List String}
    (hv : all ctx pl prev ns st = .ok (vs, st ++ new))
    (hstep : stepOk st new (fnCountList pl ns) (goodList ns)) :
    ∃ vs new, all ctx pl prev ns st = .ok (vs, st ++ new) ∧
      stepOk st new (fnCountList pl ns) (goodList ns) :=
  ⟨vs, new, hv, hstep⟩

theorem rowsP_of {ctx : Context} {align : List (Option String)} {rows : List Node}
    {i : Nat} {st : List FootnoteRecord} (new : List FootnoteRecord)
    {outs : List String}
    (hv : rowsGo ctx align rows i st = .ok (outs, st ++ new))
    (hstep : stepOk st new (fnCountRows align.length rows i) (goodList rows)) :
    ∃ outs new, rowsGo ctx align rows i st = .ok (outs, st ++ new) ∧
      stepOk st new (fnCountRows align.length rows i) (goodList rows) :=
  ⟨outs, new, hv, hstep⟩

theorem cellsP_of {ctx : Context} {align : List (Option String)} {isHead : Bool}
    {cells : List Node} {p : Nat} {st : List FootnoteRecord}
    (new : List FootnoteRecord) {outs : List String}
    (hv : cellsGo ctx align isHead cells p st = .ok (outs, st ++ new))
    (hstep : stepOk st new (fnCountCells cells p) (goodList cells)) :
    ∃ outs new, cellsGo ctx align isHead cells p st = .ok (outs, st ++ new) ∧
      stepOk st new (fnCountCells cells p) (goodList cells) :=
  ⟨outs, new, hv, hstep⟩

theorem visitMaster (ctx : Context) :
    ∀ (pl : Bool) (node : Node) (st : List FootnoteRecord), visitP ctx pl node st := by
  apply visit.induct ctx (visitP ctx) (rowsP ctx) (cellsP ctx) (allP ctx)
  · intro pl st cs e hall ih hs hnr
    rw [svn_eq_local] at hs
    simp only [localSvn, childrenOf, Bool.and_eq_true] at hs
    exact (allP_error ih hs.2 hs.1 hall).elim
  · intro pl st cs vs st' hall ih hs hnr
    rw [svn_eq_local] at hs
    simp only [localSvn, childrenOf, Bool.and_eq_true] at hs
    obtain ⟨new, hst, hstep⟩ := allP_ok ih hs.2 hs.1 hall
    subst hst
    apply visitP_of new ?hv ?hc
    case hv =>
      simp only [visit, hall]
      rfl
    case hc =>
      refine stepOk_mono hstep (by simp [fnCount]) ?_
      intro hg
      rw [good_eq_local] at hg
      simp only [Bool.and_eq_true] at hg
      simpa [childrenOf] using hg.2
  · intro pl st d cs e hall ih hs hnr
    rw [svn_eq_local] at hs
    simp only [localSvn, childrenOf, Bool.and_eq_true] at hs
    exact (allP_error ih hs.2 hs.1 hall).elim
  · intro pl st d cs vs st' hall ih hs hnr
    rw [svn_eq_local] at hs
    simp only [localSvn, childrenOf, Bool.and_eq_true] at hs
    obtain ⟨new, hst, hstep⟩ := allP_ok ih hs.2 hs.1 hall
    subst hst
    apply visitP_of new ?hv ?hc
    case hv =>
      simp only [visit, hall]
      rfl
    case hc =>
      refine stepOk_mono hstep (by simp [fnCount]) ?_
      intro hg
      rw [good_eq_local] at hg
      simp only [Bool.and_eq_true] at hg
      simpa [childrenOf] using hg.2
  · intro pl st cs e hall ih hs hnr
    rw [svn_eq_local] at hs
    simp only [localSvn, childrenOf, Bool.and_eq_true] at hs
    exact (allP_error ih hs.2 hs.1 hall).elim
  · intro pl st cs vs st' hall ih hs hnr
    rw [svn_eq_local] at hs
    simp only [localSvn, childrenOf, Bool.and_eq_true] at hs
    obtain ⟨new, hst, hstep⟩ := allP_ok ih hs.2 hs.1 hall
    subst hst
    apply visitP_of new ?hv ?hc
    case hv =>
      simp only [visit, hall]
      rfl
    case hc =>
      refine stepOk_mono hstep (by simp [fnCount]) ?_
      intro hg
      rw [good_eq_local] at hg
      simp only [Bool.and_eq_true] at hg
      simpa [childrenOf] using hg.2
  · intro pl st o s l cs e hall ih hs hnr
    rw [svn_eq_local] at hs
    simp only [localSvn, childrenOf, Bool.and_eq_true] at hs
    exact (allP_error ih hs.2 hs.1 hall).elim
  · intro pl st o s l cs vs st' hall ih hs hnr
    rw [svn_eq_local] at hs
    simp only [localSvn, childrenOf, Bool.and_eq_true] at hs
    obtain ⟨new, hst, hstep⟩ := allP_ok ih hs.2 hs.1 hall
    subst hst
    have hvis : visit ctx pl (Node.list o s l cs) st =
        Except.ok (h (if o = true then "ol" else "ul")
          [("start", match s with
            | some v => if v = 1 then none else some (toString v)
            | none => none)]
          ("\n".intercalate vs) true, st ++ new) := by
      cases s <;> simp only [visit, hall]
    apply visitP_of new ?hv ?hc
    case hv => exact hvis
    case hc =>
      refine stepOk_mono hstep (by simp [fnCount]) ?_
      intro hg
      rw [good_eq_local] at hg
      simp only [Bool.and_eq_true] at hg
      simpa [childrenOf] using hg.2
  · intro pl st attrs c hcond e hall ih hs hnr
    obtain ⟨hsl, hrc⟩ := listItem_single_sub hs
    exact (allP_error ih hsl hrc hall).elim
  · intro pl st attrs c hcond vs st' hall ih hs hnr
    obtain ⟨hsl, hrc⟩ := listItem_single_sub hs
    obtain ⟨new, hst, hstep⟩ := allP_ok ih hsl hrc hall
    subst hst
    apply visitP_of new ?hv ?hc
    case hv =>
      simp only [visit, hcond, hall]
      rfl
    case hc =>
      refine stepOk_mono hstep (by simp [fnCount, hcond]) ?_
      intro hg
      exact listItem_single_good hg
  · intro pl st attrs c hcond e hall ih hs hnr
    rw [svn_eq_local] at hs
    simp only [localSvn, childrenOf, Bool.and_eq_true] at hs
    exact (allP_error ih hs.2 hs.1.2 hall).elim
  · intro pl st attrs c hcond vs st' hall ih hs hnr
    rw [svn_eq_local] at hs
    simp only [localSvn, childrenOf, Bool.and_eq_true] at hs
    obtain ⟨new, hst, hstep⟩ := allP_ok ih hs.2 hs.1.2 hall
    subst hst
    apply visitP_of new ?hv ?hc
    case hv =>
      simp only [visit, hcond, hall]
      rfl
    case hc =>
      refine stepOk_mono hstep ?cnt ?good
      case cnt =>
        simp [fnCount, hcond]
        intro h1 h2
        exact absurd ⟨by simp [h1], h2⟩ hcond
      case good =>
        intro hg
        rw [good_eq_local] at hg
        simp only [Bool.and_eq_true] at hg
        simpa [childrenOf] using hg.2
  · intro pl st attrs e hall ih hs hnr
    exact (allP_error ih svnList_nil (by simp) hall).elim
  · intro pl st attrs vs st' hall ih hs hnr
    obtain ⟨new, hst, hstep⟩ := allP_ok ih svnList_nil (by simp) hall
    subst hst
    apply visitP_of new ?hv ?hc
    case hv =>
      simp only [visit, hall]
      rfl
    case hc =>
      refine stepOk_mono hstep (by simp [fnCount, fnCountList]) ?_
      intro hg
      exact goodList_nil
  · intro pl st attrs c1 c2 rest e hall ih hs hnr
    rw [svn_eq_local] at hs
    simp only [localSvn, childrenOf, Bool.and_eq_true] at hs
    exact (allP_error ih hs.2 hs.1.2 hall).elim
  · intro pl st attrs c1 c2 rest vs st' hall ih hs hnr
    rw [svn_eq_local] at hs
    simp only [localSvn, childrenOf, Bool.and_eq_true] at hs
    obtain ⟨new, hst, hstep⟩ := allP_ok ih hs.2 hs.1.2 hall
    subst hst
    apply visitP_of new ?hv ?hc
    case hv =>
      simp only [visit, hall]
      rfl
    case hc =>
      refine stepOk_mono hstep (by simp [fnCount]) ?_
      intro hg
      rw [good_eq_local] at hg
      simp only [Bool.and_eq_true] at hg
      simpa [childrenOf] using hg.2
  · intro pl st lg v hs hnr
    have hvis : visit ctx pl (Node.code lg v) st =
        Except.ok (h "pre" []
          (h "code"
            [("class", match lg with
              | some lg0 =>
                match firstWord lg0 with
                | some w => some ("language-" ++ w)
                | none => none
              | none => none)]
            (encode (match v with
              | some v0 => if v0 = "" then "" else detab (v0 ++ "\n")
              | none => "")) false) false, st) := by
      cases lg <;> cases v <;> simp only [visit] <;> rfl
    apply visitP_of [] ?hv ?hc
    case hv =>
      rw [List.append_nil]
      exact hvis
    case hc => exact stepOk_nil st _ _ (by simp [fnCount])
  · intro pl st align rows e hrows ih hs hnr
    rw [svn_eq_local] at hs
    simp only [Bool.and_eq_true] at hs
    have hkk : (rows.all isTableRowNode) = true := by
      have hh0 := hs.1
      simp only [localSvn, List.all_eq_true] at hh0
      simp only [List.all_eq_true]
      intro x hx
      have hh := hh0 x hx
      cases x <;> simp [isTableRowNode] at hh ⊢
    exact (rowsP_error ih (by simpa [childrenOf] using hs.2) hkk hrows).elim
  · intro pl st align rows vs st' hrows ih hs hnr
    rw [svn_eq_local] at hs
    simp only [Bool.and_eq_true] at hs
    have hkk : (rows.all isTableRowNode) = true := by
      have hh0 := hs.1
      simp only [localSvn, List.all_eq_true] at hh0
      simp only [List.all_eq_true]
      intro x hx
      have hh := hh0 x hx
      cases x <;> simp [isTableRowNode] at hh ⊢
    obtain ⟨new, hst, hstep⟩ := rowsP_ok ih (by simpa [childrenOf] using hs.2) hkk hrows
    subst hst
    apply visitP_of new ?hv ?hc
    case hv =>
      simp only [visit, hrows]
      rfl
    case hc =>
      refine stepOk_mono hstep (by simp [fnCount]) ?_
      intro hg
      rw [good_eq_local] at hg
      simp only [Bool.and_eq_true] at hg
      simpa [childrenOf] using hg.2
  · intro pl st cs hs hnr
    simp [isRowOrCell] at hnr
  · intro pl st cs hs hnr
    simp [isRowOrCell] at hnr
  · intro pl st v hs hnr
    apply visitP_of [] ?hv ?hc
    case hv =>
      simp only [visit, List.append_nil]
      rfl
    case hc => exact stepOk_nil st _ _ (by simp [fnCount])
  · intro pl st hs hnr
    apply visitP_of [] ?hv ?hc
    case hv =>
      simp only [visit, List.append_nil]
      rfl
    case hc => exact stepOk_nil st _ _ (by simp [fnCount])
  · intro pl st v hs hnr
    apply visitP_of [] ?hv ?hc
    case hv =>
      simp only [visit, List.append_nil]
      rfl
    case hc => exact stepOk_nil st _ _ (by simp [fnCount])
  · intro pl st cs e hall ih hs hnr
    rw [svn_eq_local] at hs
    simp only [localSvn, childrenOf, Bool.and_eq_true] at hs
    exact (allP_error ih hs.2 hs.1 hall).elim
  · intro pl st cs vs st' hall ih hs hnr
    rw [svn_eq_local] at hs
    simp only [localSvn, childrenOf, Bool.and_eq_true] at hs
    obtain ⟨new, hst, hstep⟩ := allP_ok ih hs.2 hs.1 hall
    subst hst
    apply visitP_of new ?hv ?hc
    case hv =>
      simp only [visit, hall]
      rfl
    case hc =>
      refine stepOk_mono hstep (by simp [fnCount]) ?_
      intro hg
      rw [good_eq_local] at hg
      simp only [Bool.and_eq_true] at hg
      simpa [childrenOf] using hg.2
  · intro pl st cs e hall ih hs hnr
    rw [svn_eq_local] at hs
    simp only [localSvn, childrenOf, Bool.and_eq_true] at hs
    exact (allP_error ih hs.2 hs.1 hall).elim
  · intro pl st cs vs st' hall ih hs hnr
    rw [svn_eq_local] at hs
    simp only [localSvn, childrenOf, Bool.and_eq_true] at hs
    obtain ⟨new, hst, hstep⟩ := allP_ok ih hs.2 hs.1 hall
    subst hst
    apply visitP_of new ?hv ?hc
    case hv =>
      simp only [visit, hall]
      rfl
    case hc =>
      refine stepOk_mono hstep (by simp [fnCount]) ?_
      intro hg
      rw [good_eq_local] at hg
      simp only [Bool.and_eq_true] at hg
      simpa [childrenOf] using hg.2
  · intro pl st cs e hall ih hs hnr
    rw [svn_eq_local] at hs
    simp only [localSvn, childrenOf, Bool.and_eq_true] at hs
    exact (allP_error ih hs.2 hs.1 hall).elim
  · intro pl st cs vs st' hall ih hs hnr
    rw [svn_eq_local] at hs
    simp only [localSvn, childrenOf, Bool.and_eq_true] at hs
    obtain ⟨new, hst, hstep⟩ := allP_ok ih hs.2 hs.1 hall
    subst hst
    apply visitP_of new ?hv ?hc
    case hv =>
      simp only [visit, hall]
      rfl
    case hc =>
      refine stepOk_mono hstep (by simp [fnCount]) ?_
      intro hg
      rw [good_eq_local] at hg
      simp only [Bool.and_eq_true] at hg
      simpa [childrenOf] using hg.2
  · intro pl st hs hnr
    apply visitP_of [] ?hv ?hc
    case hv =>
      simp only [visit, List.append_nil]
      rfl
    case hc => exact stepOk_nil st _ _ (by simp [fnCount])
  · intro pl st href title attrs cs e hall ih hs hnr
    rw [svn_eq_local] at hs
    simp only [localSvn, childrenOf, Bool.and_eq_true] at hs
    exact (allP_error ih hs.2 hs.1 hall).elim
  · intro pl st href title attrs cs vs st' hall ih hs hnr
    rw [svn_eq_local] at hs
    simp only [localSvn, childrenOf, Bool.and_eq_true] at hs
    obtain ⟨new, hst, hstep⟩ := allP_ok ih hs.2 hs.1 hall
    subst hst
    apply visitP_of new ?hv ?hc
    case hv =>
      simp only [visit, hall]
      rfl
    case hc =>
      refine stepOk_mono hstep (by simp [fnCount]) ?_
      intro hg
      rw [good_eq_local] at hg
      simp only [Bool.and_eq_true] at hg
      simpa [childrenOf] using hg.2
  · intro pl st src title alt hs hnr
    apply visitP_of [] ?hv ?hc
    case hv =>
      simp only [visit, List.append_nil]
      rfl
    case hc => exact stepOk_nil st _ _ (by simp [fnCount])
  · intro pl st cs hs hnr
    apply visitP_of [⟨allocId (st.map fun r => r.identifier), cs⟩] ?hv ?hc
    case hv =>
      simp only [visit]
      rfl
    case hc =>
      rw [svn_eq_local] at hs
      simp only [localSvn, childrenOf, Bool.and_eq_true] at hs
      refine ⟨by simp [fnCount], allocOk_single st _, ?_, ?_⟩
      · intro r hr
        simp at hr
        subst hr
        simp only [recOk, Bool.and_eq_true]
        exact ⟨hs.2, hs.1⟩
      · intro hg r hr
        simp at hr
        subst hr
        rw [good_eq_local] at hg
        simp only [localGood, Bool.and_eq_true] at hg
        simpa [fnFreeList] using hg.1
  · intro pl st i hs hnr
    apply visitP_of [] ?hv ?hc
    case hv =>
      simp only [visit, List.append_nil]
      rfl
    case hc => exact stepOk_nil st _ _ (by simp [fnCount])
  · intro pl st i rt cs defn hcond e hall ih hs hnr
    rw [svn_eq_local] at hs
    simp only [localSvn, childrenOf, Bool.and_eq_true] at hs
    exact (allP_error ih hs.2 hs.1 hall).elim
  · intro pl st i rt cs defn hcond vs st' hall ih hs hnr
    rw [svn_eq_local] at hs
    simp only [localSvn, childrenOf, Bool.and_eq_true] at hs
    obtain ⟨new, hst, hstep⟩ := allP_ok ih hs.2 hs.1 hall
    subst hst
    apply visitP_of new ?hv ?hc
    case hv =>
      simp only [visit, hall]
      rw [if_pos (hcond : rt = "shortcut" ∧ defLink (findDefinition ctx i) = "")]
    case hc =>
      refine stepOk_mono hstep (by simp [fnCount]) ?_
      intro hg
      rw [good_eq_local] at hg
      simp only [Bool.and_eq_true] at hg
      simpa [childrenOf] using hg.2
  · intro pl st i rt cs defn hcond e hall ih hs hnr
    rw [svn_eq_local] at hs
    simp only [localSvn, childrenOf, Bool.and_eq_true] at hs
    exact (allP_error ih hs.2 hs.1 hall).elim
  · intro pl st i rt cs defn hcond vs st' hall ih hs hnr
    rw [svn_eq_local] at hs
    simp only [localSvn, childrenOf, Bool.and_eq_true] at hs
    obtain ⟨new, hst, hstep⟩ := allP_ok ih hs.2 hs.1 hall
    subst hst
    apply visitP_of new ?hv ?hc
    case hv =>
      simp only [visit, hall]
      rw [if_neg (hcond : ¬(rt = "shortcut" ∧ defLink (findDefinition ctx i) = ""))]
    case hc =>
      refine stepOk_mono hstep (by simp [fnCount]) ?_
      intro hg
      rw [good_eq_local] at hg
      simp only [Bool.and_eq_true] at hg
      simpa [childrenOf] using hg.2
  · intro pl st i rt alt defn hcond hs hnr
    apply visitP_of [] ?hv ?hc
    case hv =>
      simp only [visit, List.append_nil]
      rw [if_pos (hcond : rt = "shortcut" ∧ defLink (findDefinition ctx i) = "")]
    case hc => exact stepOk_nil st _ _ (by simp [fnCount])
  · intro pl st i rt alt defn hcond hs hnr
    apply visitP_of [] ?hv ?hc
    case hv =>
      simp only [visit, List.append_nil]
      rw [if_neg (hcond : ¬(rt = "shortcut" ∧ defLink (findDefinition ctx i) = ""))]
    case hc => exact stepOk_nil st _ _ (by simp [fnCount])
  · intro pl st v hs hnr
    apply visitP_of [] ?hv ?hc
    case hv =>
      simp only [visit, List.append_nil]
      rfl
    case hc => exact stepOk_nil st _ _ (by simp [fnCount])
  · intro pl st hs hnr
    apply visitP_of [] ?hv ?hc
    case hv =>
      simp [visit, List.append_nil]
      rfl
    case hc => exact stepOk_nil st _ _ (by simp [fnCount])
  · intro pl st v hv0 hs hnr
    apply visitP_of [] ?hv ?hc
    case hv =>
      simp only [visit, List.append_nil]
      rw [if_neg hv0]
    case hc => exact stepOk_nil st _ _ (by simp [fnCount])
  · intro pl st i l t hs hnr
    apply visitP_of [] ?hv ?hc
    case hv =>
      simp only [visit, List.append_nil]
      rfl
    case hc => exact stepOk_nil st _ _ (by simp [fnCount])
  · intro pl st i cs hs hnr
    apply visitP_of [] ?hv ?hc
    case hv =>
      simp only [visit, List.append_nil]
      rfl
    case hc => exact stepOk_nil st _ _ (by simp [fnCount])
  · intro pl st v hs hnr
    apply visitP_of [] ?hv ?hc
    case hv =>
      simp only [visit, List.append_nil]
      rfl
    case hc => exact stepOk_nil st _ _ (by simp [fnCount])
  · intro pl st t hs hnr
    rw [svn_eq_local] at hs
    simp [localSvn] at hs
  · intro align rows st hs hk
    apply rowsP_of [] ?hv ?hc
    case hv =>
      simp only [rowsGo, List.append_nil]
      rfl
    case hc => exact stepOk_nil st _ _ (by simp [fnCountRows])
  · intro align rows st i' row hrow e hcells ih hs hk
    have hmem : row ∈ rows := List.get?_mem hrow
    have hsvnrow : svn row = true := svnList_mem hs hmem
    have hkr : isTableRowNode row = true := by
      simp only [List.all_eq_true] at hk
      exact hk row hmem
    obtain ⟨cells0, heqrow, hsl, hck⟩ := tableRow_sub hsvnrow hkr
    exact (cellsP_error ih hsl hck hcells).elim
  · intro align rows st i' row hrow vs st' hcells e hrest ihc ihr hs hk
    have hmem : row ∈ rows := List.get?_mem hrow
    have hsvnrow : svn row = true := svnList_mem hs hmem
    have hkr : isTableRowNode row = true := by
      simp only [List.all_eq_true] at hk
      exact hk row hmem
    obtain ⟨cells0, heqrow, hsl, hck⟩ := tableRow_sub hsvnrow hkr
    obtain ⟨new1, hst, hstep1⟩ := cellsP_ok ihc hsl hck hcells
    subst hst
    exact (rowsP_error ihr hs hk hrest).elim
  · intro align rows st i' row hrow vs st' hcells vs2 st'' hrest ihc ihr hs hk
    have hmem : row ∈ rows := List.get?_mem hrow
    have hsvnrow : svn row = true := svnList_mem hs hmem
    have hgoodrow : goodList rows = true → good row = true := fun hg => goodList_mem hg hmem
    have hkr : isTableRowNode row = true := by
      simp only [List.all_eq_true] at hk
      exact hk row hmem
    obtain ⟨cells0, heqrow, hsl, hck⟩ := tableRow_sub hsvnrow hkr
    obtain ⟨new1, hst, hstep1⟩ := cellsP_ok ihc hsl hck hcells
    subst hst
    obtain ⟨new2, hst2, hstep2⟩ := rowsP_ok ihr hs hk hrest
    subst hst2
    apply rowsP_of (new1 ++ new2) ?hv ?hc
    case hv =>
      rw [rowsGo_succ]
      simp only [hrow, hcells, hrest, List.append_assoc]
      rfl
    case hc =>
      have hcnt : fnCountRows align.length rows (i' + 1) =
          fnCountCells (childrenOf row) align.length + fnCountRows align.length rows i' := by
        rw [fnCountRows_succ]
        simp only [hrow]
      have happ : stepOk st (new1 ++ new2)
          (fnCountCells (childrenOf row) align.length + fnCountRows align.length rows i')
          (goodList rows) := by
        refine stepOk_append hstep1 hstep2 ?_ (fun hg => hg)
        intro hg
        have hgr := hgoodrow hg
        rw [good_eq_local] at hgr
        simp only [Bool.and_eq_true] at hgr
        exact hgr.2
      exact stepOk_mono happ hcnt (fun hg => hg)
  · intro align rows st i' hrow e hrest ihr hs hk
    exact (rowsP_error ihr hs hk hrest).elim
  · intro align rows st i' hrow vs st' hrest ihr hs hk
    obtain ⟨new, hst, hstep⟩ := rowsP_ok ihr hs hk hrest
    subst hst
    apply rowsP_of new ?hv ?hc
    case hv =>
      rw [rowsGo_succ]
      simp only [hrow, hrest]
      rfl
    case hc =>
      refine stepOk_mono hstep ?_ (fun hg => hg)
      rw [fnCountRows_succ]
      simp only [hrow]
      omega
  · intro align isHead cells st hs hk
    apply cellsP_of [] ?hv ?hc
    case hv =>
      simp only [cellsGo, List.append_nil]
      rfl
    case hc => exact stepOk_nil st _ _ (by simp [fnCountCells])
  · intro align isHead cells st q cell hcell e hallc ihall hs hk
    have hmem : cell ∈ cells := List.get?_mem hcell
    have hsvncell : svn cell = true := svnList_mem hs hmem
    have hkc : isTableCellNode cell = true := by
      simp only [List.all_eq_true] at hk
      exact hk cell hmem
    obtain ⟨hsl, hrc⟩ := tableCell_sub hsvncell hkc
    exact (allP_error ihall hsl hrc hallc).elim
  · intro align isHead cells st q cell hcell vs st' hallc e hcrest ihall ihc hs hk
    have hmem : cell ∈ cells := List.get?_mem hcell
    have hsvncell : svn cell = true := svnList_mem hs hmem
    have hkc : isTableCellNode cell = true := by
      simp only [List.all_eq_true] at hk
      exact hk cell hmem
    obtain ⟨hsl, hrc⟩ := tableCell_sub hsvncell hkc
    obtain ⟨new1, hst, hstep1⟩ := allP_ok ihall hsl hrc hallc
    subst hst
    exact (cellsP_error ihc hs hk hcrest).elim
  · intro align isHead cells st q cell hcell vs st' hallc vs2 st'' hcrest ihall ihc hs hk
    have hmem : cell ∈ cells := List.get?_mem hcell
    have hsvncell : svn cell = true := svnList_mem hs hmem
    have hgoodcell : goodList cells = true → good cell = true := fun hg => goodList_mem hg hmem
    have hkc : isTableCellNode cell = true := by
      simp only [List.all_eq_true] at hk
      exact hk cell hmem
    obtain ⟨hsl, hrc⟩ := tableCell_sub hsvncell hkc
    obtain ⟨new1, hst, hstep1⟩ := allP_ok ihall hsl hrc hallc
    subst hst
    obtain ⟨new2, hst2, hstep2⟩ := cellsP_ok ihc hs hk hcrest
    subst hst2
    apply cellsP_of (new1 ++ new2) ?hv ?hc
    case hv =>
      rw [cellsGo_succ]
      simp only [hcell, hallc, hcrest, List.append_assoc]
      rfl
    case hc =>
      have hcnt : fnCountCells cells (q + 1) =
          fnCountList (looseOf cell) (childrenOf cell) + fnCountCells cells q := by
        rw [fnCountCells_succ]
        simp only [hcell]
      have happ : stepOk st (new1 ++ new2)
          (fnCountList (looseOf cell) (childrenOf cell) + fnCountCells cells q)
          (goodList cells) := by
        refine stepOk_append hstep1 hstep2 ?_ (fun hg => hg)
        intro hg
        have hgc := hgoodcell hg
        rw [good_eq_local] at hgc
        simp only [Bool.and_eq_true] at hgc
        exact hgc.2
      exact stepOk_mono happ hcnt (fun hg => hg)
  · intro align isHead cells st q hcell e hcrest ihc hs hk
    exact (cellsP_error ihc hs hk hcrest).elim
  · intro align isHead cells st q hcell vs st' hcrest ihc hs hk
    obtain ⟨new, hst, hstep⟩ := cellsP_ok ihc hs hk hcrest
    subst hst
    apply cellsP_of new ?hv ?hc
    case hv =>
      rw [cellsGo_succ]
      simp only [hcell, hcrest]
      rfl
    case hc =>
      refine stepOk_mono hstep ?_ (fun hg => hg)
      rw [fnCountCells_succ]
      simp only [hcell]
      omega
  · intro pl prev st hs hnr
    apply allP_of [] ?hv ?hc
    case hv =>
      simp only [all, List.append_nil]
      rfl
    case hc => exact stepOk_nil st _ _ (by simp [fnCountList])
  · intro pl prev st n rest e hv ih1 hs hnr
    rw [svnList_cons] at hs
    simp only [List.all_cons, Bool.and_eq_true] at hs hnr
    exact (visitP_error ih1 hs.1 (by simpa using hnr.1) hv).elim
  · intro pl prev st n rest value st1 hv e hrest ih1 ih4 hs hnr
    rw [svnList_cons] at hs
    simp only [List.all_cons, Bool.and_eq_true] at hs hnr
    obtain ⟨new1, hst, hstep1⟩ := visitP_ok ih1 hs.1 (by simpa using hnr.1) hv
    subst hst
    exact (allP_error ih4 hs.2 (by simp [hnr.2]) hrest).elim
  · intro pl prev st n rest st1 vs st' hrest hv ih1 ih4 hs hnr
    rw [svnList_cons] at hs
    simp only [List.all_cons, Bool.and_eq_true] at hs hnr
    obtain ⟨new1, hst, hstep1⟩ := visitP_ok ih1 hs.1 (by simpa using hnr.1) hv
    subst hst
    obtain ⟨new2, hst2, hstep2⟩ := allP_ok ih4 hs.2 (by simp [hnr.2]) hrest
    subst hst2
    apply allP_of (new1 ++ new2) ?hv2 ?hc2
    case hv2 =>
      simp only [all, hv, hrest, List.append_assoc]
      rfl
    case hc2 =>
      have hcnt : fnCountList pl (n :: rest) = fnCount pl n + fnCountList pl rest := by
        simp [fnCountList]
      have happ : stepOk st (new1 ++ new2)
          (fnCount pl n + fnCountList pl rest) (goodList (n :: rest)) := by
        refine stepOk_append hstep1 hstep2 ?_ ?_
        · intro hg
          rw [goodList_cons] at hg
          simp only [Bool.and_eq_true] at hg
          exact hg.1
        · intro hg
          rw [goodList_cons] at hg
          simp only [Bool.and_eq_true] at hg
          exact hg.2
      exact stepOk_mono happ hcnt (fun hg => hg)
  · intro pl prev st n rest value st1 hv vs st' hrest hval hbr ih1 ih4 hs hnr
    rw [svnList_cons] at hs
    simp only [List.all_cons, Bool.and_eq_true] at hs hnr
    obtain ⟨new1, hst, hstep1⟩ := visitP_ok ih1 hs.1 (by simpa using hnr.1) hv
    subst hst
    obtain ⟨new2, hst2, hstep2⟩ := allP_ok ih4 hs.2 (by simp [hnr.2]) hrest
    subst hst2
    apply allP_of (new1 ++ new2) ?hv2 ?hc2
    case hv2 =>
      simp only [all, hv, hrest, hval, hbr, List.append_assoc]
      rfl
    case hc2 =>
      have hcnt : fnCountList pl (n :: rest) = fnCount pl n + fnCountList pl rest := by
        simp [fnCountList]
      have happ : stepOk st (new1 ++ new2)
          (fnCount pl n + fnCountList pl rest) (goodList (n :: rest)) := by
        refine stepOk_append hstep1 hstep2 ?_ ?_
        · intro hg
          rw [goodList_cons] at hg
          simp only [Bool.and_eq_true] at hg
          exact hg.1
        · intro hg
          rw [goodList_cons] at hg
          simp only [Bool.and_eq_true] at hg
          exact hg.2
      exact stepOk_mono happ hcnt (fun hg => hg)
  · intro pl prev st n rest value st1 hv vs st' hrest hval hbr ih1 ih4 hs hnr
    rw [svnList_cons] at hs
    simp only [List.all_cons, Bool.and_eq_true] at hs hnr
    obtain ⟨new1, hst, hstep1⟩ := visitP_ok ih1 hs.1 (by simpa using hnr.1) hv
    subst hst
    obtain ⟨new2, hst2, hstep2⟩ := allP_ok ih4 hs.2 (by simp [hnr.2]) hrest
    subst hst2
    apply allP_of (new1 ++ new2) ?hv2 ?hc2
    case hv2 =>
      simp only [all, hv, hrest, hval, hbr, List.append_assoc]
      rfl
    case hc2 =>
      have hcnt : fnCountList pl (n :: rest) = fnCount pl n + fnCountList pl rest := by
        simp [fnCountList]
      have happ : stepOk st (new1 ++ new2)
          (fnCount pl n + fnCountList pl rest) (goodList (n :: rest)) := by
        refine stepOk_append hstep1 hstep2 ?_ ?_
        · intro hg
          rw [goodList_cons] at hg
          simp only [Bool.and_eq_true] at hg
          exact hg.1
        · intro hg
          rw [goodList_cons] at hg
          simp only [Bool.and_eq_true] at hg
          exact hg.2
      exact stepOk_mono happ hcnt (fun hg => hg)

theorem good_of_mem_subnodes {n m : Node} (hg : good n = true) (hm : m ∈ subnodes n) :
    good m = true := by
  simp only [good, List.all_eq_true] at hg ⊢
  intro k hk
  exact hg k (subnodes_trans n m hm k hk)

theorem svn_of_mem_subnodesList {ns : List Node} {m : Node}
    (hs : svnList ns = true) (hm : m ∈ subnodesList ns) : svn m = true := by
  obtain ⟨n, hn, hmn⟩ := (mem_subnodesList_iff ns m).1 hm
  exact svn_of_mem_subnodes (svnList_mem hs hn) hmn

theorem good_of_mem_subnodesList {ns : List Node} {m : Node}
    (hg : goodList ns = true) (hm : m ∈ subnodesList ns) : good m = true := by
  obtain ⟨n, hn, hmn⟩ := (mem_subnodesList_iff ns m).1 hm
  exact good_of_mem_subnodes (goodList_mem hg hn) hmn

theorem allMaster (ctx : Context) (pl : Bool) : ∀ (ns : List Node) (prev : Option Node)
    (st : List FootnoteRecord), allP ctx pl prev ns st := by
  intro ns
  induction ns with
  | nil =>
    intro prev st hs hnr
    refine ⟨[], [], ?_, stepOk_nil st _ _ (by simp [fnCountList])⟩
    simp only [all, List.append_nil]
  | cons n rest ih =>
    intro prev st hs hnr
    rw [svnList_cons] at hs
    simp only [List.all_cons, Bool.and_eq_true] at hs hnr
    obtain ⟨out, new1, hv, hstep1⟩ := visitMaster ctx pl n st hs.1 (by simpa using hnr.1)
    obtain ⟨vs, new2, hrest, hstep2⟩ := ih (some n) (st ++ new1) hs.2 (by simp [hnr.2])
    refine ⟨if out = "" then vs else if prevBreakish prev then trimLeft out :: vs
      else out :: vs, new1 ++ new2, ?_, ?_⟩
    · simp only [all, hv, hrest, List.append_assoc]
      by_cases h1 : out = "" <;> by_cases h2 : prevBreakish prev = true <;> simp [h1, h2]
    · have hcnt : fnCountList pl (n :: rest) = fnCount pl n + fnCountList pl rest := by
        simp [fnCountList]
      have happ : stepOk st (new1 ++ new2)
          (fnCount pl n + fnCountList pl rest) (goodList (n :: rest)) := by
        refine stepOk_append hstep1 hstep2 ?_ ?_
        · intro hg
          rw [goodList_cons] at hg
          simp only [Bool.and_eq_true] at hg
          exact hg.1
        · intro hg
          rw [goodList_cons] at hg
          simp only [Bool.and_eq_true] at hg
          exact hg.2
      exact stepOk_mono happ hcnt (fun hg => hg)

theorem footnoteItem_rowcell (r : FootnoteRecord) :
    isRowOrCell (footnoteItem r) = false := rfl

theorem footnoteItem_svn {r : FootnoteRecord} (h : recOk r = true) :
    svn (footnoteItem r) = true := by
  simp only [recOk, Bool.and_eq_true] at h
  rw [footnoteItem, svn_eq_local]
  simp only [childrenOf, Bool.and_eq_true]
  refine ⟨?_, ?_⟩
  · simp only [localSvn, Bool.and_eq_true]
    refine ⟨?_, ?_⟩
    · rcases hc : r.children with _ | ⟨a, as⟩
      · simp
      · cases a <;> cases as <;> simp
    · rw [List.all_append]
      simp only [Bool.and_eq_true]
      exact ⟨h.2, by simp [isRowOrCell]⟩
  · rw [svnList_append]
    simp only [Bool.and_eq_true]
    refine ⟨h.1, ?_⟩
    simp [svnList, subnodesList_cons, subnodes_eq, childrenOf, localSvn, isRowOrCell,
      subnodesList]

theorem footnoteItem_count {r : FootnoteRecord} (hf : fnFreeList r.children = true) :
    fnCount false (footnoteItem r) = 0 := by
  have h1 : fnCount false (footnoteItem r) ≤ countFn (footnoteItem r) :=
    fnCount_le_countFn _ _
  have h2 : countFn (footnoteItem r) = 0 := by
    rw [footnoteItem, countFn_eq_local]
    simp only [Node.kind, childrenOf]
    rw [countFnList_append, countFnList_zero_of_fnFreeList hf]
    rw [countFnList_cons, countFnList_nil, countFn_eq_local]
    simp only [Node.kind, childrenOf]
    rw [countFnList_cons, countFnList_nil, countFn_eq_local]
    simp [Node.kind, childrenOf, countFnList_nil]
  omega

theorem genItemsOk (ctx : Context) : ∀ (records st : List FootnoteRecord),
    (∀ r ∈ records, recOk r = true ∧ fnFreeList r.children = true) →
    ∃ items, genItems ctx records st = .ok (items, st) := by
  intro records
  induction records with
  | nil => exact fun st _ => ⟨[], rfl⟩
  | cons r rest ih =>
    intro st h
    have hr := h r (by simp)
    obtain ⟨out, new, hv, hstep⟩ := visitMaster ctx false (footnoteItem r) st
      (footnoteItem_svn hr.1) (footnoteItem_rowcell r)
    have hnew : new = [] := by
      refine List.eq_nil_of_length_eq_zero ?_
      have hl := hstep.1
      rw [footnoteItem_count hr.2] at hl
      exact hl
    subst hnew
    rw [List.append_nil] at hv
    obtain ⟨items, hrest⟩ := ih st (fun x hx => h x (by simp [hx]))
    exact ⟨out :: items, by simp [genItems, hv, hrest]⟩

theorem genItems_success (ctx : Context) : ∀ (records st : List FootnoteRecord),
    (∀ r ∈ records, recOk r = true) →
    ∃ items st', genItems ctx records st = .ok (items, st') := by
  intro records
  induction records with
  | nil => exact fun st _ => ⟨[], st, rfl⟩
  | cons r rest ih =>
    intro st h
    have hr := h r (by simp)
    obtain ⟨out, new, hv, hstep⟩ := visitMaster ctx false (footnoteItem r) st
      (footnoteItem_svn hr) (footnoteItem_rowcell r)
    obtain ⟨items, st2, hrest⟩ := ih (st ++ new) (fun x hx => h x (by simp [hx]))
    exact ⟨out :: items, st2, by simp [genItems, hv, hrest]⟩

theorem generateFootnotesOk (ctx : Context) (st : List FootnoteRecord)
    (hrec : ∀ r ∈ st, recOk r = true ∧ fnFreeList r.children = true) :
    ∃ out, generateFootnotes ctx st = .ok (out, st) := by
  obtain ⟨items, hgen⟩ := genItemsOk ctx st st hrec
  cases st with
  | nil => exact ⟨"", rfl⟩
  | cons r rest =>
    refine ⟨h "div" [("class", some "footnotes")]
      (h "hr" [] "" false ++ "\n" ++ h "ol" [] (String.intercalate "\n" items) true)
      true ++ "\n", ?_⟩
    simp [generateFootnotes, hgen]

theorem generateFootnotes_success (ctx : Context) (st : List FootnoteRecord)
    (hrec : ∀ r ∈ st, recOk r = true) :
    ∃ out st', generateFootnotes ctx st = .ok (out, st') := by
  obtain ⟨items, st2, hgen⟩ := genItems_success ctx st st hrec
  cases st with
  | nil => exact ⟨"", [], rfl⟩
  | cons r rest =>
    refine ⟨h "div" [("class", some "footnotes")]
      (h "hr" [] "" false ++ "\n" ++ h "ol" [] (String.intercalate "\n" items) true)
      true ++ "\n", st2, ?_⟩
    simp [generateFootnotes, hgen]

theorem collectedFootnotes_mem {t : RootNode} {r : FootnoteRecord}
    (hr : r ∈ collectedFootnotes t) :
    Node.footnoteDefinition r.identifier r.children ∈ subnodesList t.children := by
  simp only [collectedFootnotes, List.mem_filterMap] at hr
  obtain ⟨n, hn, hm⟩ := hr
  cases n <;> simp at hm
  rename_i i cs
  subst hm
  simpa using hn

theorem collected_recOk {t : RootNode} (hs : svnRoot t = true) :
    ∀ r ∈ collectedFootnotes t, recOk r = true := by
  intro r hr
  have hmem := collectedFootnotes_mem hr
  have hsl : svnList t.children = true := by
    simp only [svnRoot, Bool.and_eq_true] at hs
    exact hs.1
  have hsvn := svn_of_mem_subnodesList hsl hmem
  rw [svn_eq_local] at hsvn
  simp only [localSvn, childrenOf, Bool.and_eq_true] at hsvn
  simp only [recOk, Bool.and_eq_true]
  exact ⟨hsvn.2, hsvn.1⟩

theorem collected_fnFree {t : RootNode} (hg : goodRoot t = true) :
    ∀ r ∈ collectedFootnotes t, fnFreeList r.children = true := by
  intro r hr
  have hmem := collectedFootnotes_mem hr
  have hgl : goodList t.children = true := by simpa [goodRoot, goodList] using hg
  have hgood := good_of_mem_subnodesList hgl hmem
  rw [good_eq_local] at hgood
  simp only [localGood, Bool.and_eq_true] at hgood
  simpa [fnFreeList] using hgood.1

theorem rootMaster (t : RootNode) (sanitize : Bool)
    (hs : svnRoot t = true) (hg : goodRoot t = true) :
    ∃ out new,
      root t sanitize = .ok (out, collectedFootnotes t ++ new) ∧
      stepOk (collectedFootnotes t) new (fnCountList false t.children)
        (goodList t.children) := by
  have hs0 := hs
  simp only [svnRoot, Bool.and_eq_true] at hs0
  have hgl : goodList t.children = true := by simpa [goodRoot, goodList] using hg
  obtain ⟨vs, new, hall, hstep⟩ := allMaster ⟨collectedDefinitions t, sanitize⟩ false
    t.children none (collectedFootnotes t) hs0.1 hs0.2
  have hrecs : ∀ r ∈ collectedFootnotes t ++ new,
      recOk r = true ∧ fnFreeList r.children = true := by
    intro r hr
    rcases List.mem_append.mp hr with h1 | h2
    · exact ⟨collected_recOk hs r h1, collected_fnFree hg r h1⟩
    · exact ⟨hstep.2.2.1 r h2, hstep.2.2.2 hgl r h2⟩
  obtain ⟨gen, hgen⟩ := generateFootnotesOk ⟨collectedDefinitions t, sanitize⟩ _ hrecs
  refine ⟨(if String.intercalate "\n" vs = "" then ""
    else String.intercalate "\n" vs ++ "\n") ++ gen, new, ?_, hstep⟩
  simp only [root, hall, hgen]

theorem root_success (t : RootNode) (sanitize : Bool) (hs : svnRoot t = true) :
    ∃ out st', root t sanitize = .ok (out, st') := by
  have hs0 := hs
  simp only [svnRoot, Bool.and_eq_true] at hs0
  obtain ⟨vs, new, hall, hstep⟩ := allMaster ⟨collectedDefinitions t, sanitize⟩ false
    t.children none (collectedFootnotes t) hs0.1 hs0.2
  have hrecs : ∀ r ∈ collectedFootnotes t ++ new, recOk r = true := by
    intro r hr
    rcases List.mem_append.mp hr with h1 | h2
    · exact collected_recOk hs r h1
    · exact hstep.2.2.1 r h2
  obtain ⟨gen, st2, hgen⟩ := generateFootnotes_success ⟨collectedDefinitions t, sanitize⟩ _ hrecs
  refine ⟨(if String.intercalate "\n" vs = "" then ""
    else String.intercalate "\n" vs ++ "\n") ++ gen, st2, ?_⟩
  simp only [root, hall, hgen]

theorem buildIndex_eq_resolveSpec : ∀ (ds : List Definition) (k : String),
    buildIndex ds k = resolveSpec ds k := by
  intro ds
  induction ds using List.reverseRecOn with
  | nil => intro k; rfl
  | append_singleton xs d ih =>
    intro k
    have hb : buildIndex (xs ++ [d]) k =
        if k = d.identifier.toUpper then some d else buildIndex xs k := by
      simp [buildIndex, List.foldl_append]
    rw [hb, resolveSpec, List.filter_append]
    by_cases hk : k = d.identifier.toUpper
    · have : List.filter (fun x => decide (x.identifier.toUpper = k)) [d] = [d] := by
        simp [hk]
      rw [this, List.getLast?_concat]
      simp [hk]
    · have : List.filter (fun x => decide (x.identifier.toUpper = k)) [d] = [] := by
        simp
        intro hc
        exact absurd hc.symm hk
      rw [this, List.append_nil]
      rw [ih k, resolveSpec, if_neg hk]

theorem fnCountList_le_countFnList (pl : Bool) : ∀ ns : List Node,
    fnCountList pl ns ≤ countFnList ns := by
  intro ns
  induction ns with
  | nil => simp [fnCountList, countFnList_nil]
  | cons n rest ih =>
    have h1 : fnCountList pl (n :: rest) = fnCount pl n + fnCountList pl rest := by
      simp [fnCountList]
    rw [h1, countFnList_cons]
    have := fnCount_le_countFn pl n
    omega

theorem fnCountList_eq_countFnList (pl : Bool) : ∀ ns : List Node,
    svnList ns = true → goodList ns = true →
    (ns.all fun c => ! isRowOrCell c) = true →
    fnCountList pl ns = countFnList ns := by
  intro ns
  induction ns with
  | nil => intro _ _ _; simp [fnCountList, countFnList_nil]
  | cons n rest ih =>
    intro hs hg hnr
    rw [svnList_cons] at hs
    rw [goodList_cons] at hg
    simp only [List.all_cons, Bool.and_eq_true] at hs hg hnr
    have h1 : fnCountList pl (n :: rest) = fnCount pl n + fnCountList pl rest := by
      simp [fnCountList]
    rw [h1, countFnList_cons, fnCount_eq_countFn pl n hs.1 hg.1 (by simpa using hnr.1),
      ih hs.2 hg.2 hnr.2]

theorem all_fnFree_fixed {ctx : Context} {pl : Bool} {ns : List Node}
    {st : List FootnoteRecord} (hs : svnList ns = true)
    (hnr : (ns.all fun c => ! isRowOrCell c) = true) (hf : fnFreeList ns = true) :
    ∃ vs, all ctx pl none ns st = .ok (vs, st) := by
  obtain ⟨vs, new, hall, hstep⟩ := allMaster ctx pl ns none st hs hnr
  have hz : new = [] := by
    refine List.eq_nil_of_length_eq_zero ?_
    have h1 := hstep.1
    have h2 := fnCountList_le_countFnList pl ns
    have h3 := countFnList_zero_of_fnFreeList hf
    omega
  subst hz
  rw [List.append_nil] at hall
  exact ⟨vs, hall⟩

theorem endsWithNewline_append_newline (s : String) :
    endsWithNewline (s ++ "\n") = true := by
  simp [endsWithNewline, String.data_append]

theorem endsWithNewline_append_right (a s : String) (h : endsWithNewline s = true) :
    endsWithNewline (a ++ s) = true := by
  simp only [endsWithNewline, String.data_append, decide_eq_true_eq] at h ⊢
  rcases List.getLast?_eq_some_iff.mp (by simpa using h) with ⟨l, hl⟩
  rw [hl, ← List.append_assoc, List.getLast?_concat]

theorem generateFootnotes_newline {ctx : Context} {st : List FootnoteRecord}
    {g : String} {st' : List FootnoteRecord}
    (h : generateFootnotes ctx st = .ok (g, st')) :
    g = "" ∨ endsWithNewline g = true := by
  cases st with
  | nil =>
    simp only [generateFootnotes] at h
    injection h with h
    injection h with h1 h2
    exact Or.inl h1.symm
  | cons r rest =>
    simp only [generateFootnotes] at h
    split at h
    · exact absurd h (by simp)
    · rename_i results st2 heq
      injection h with h
      injection h with h1 h2
      right
      rw [← h1]
      exact endsWithNewline_append_newline _

theorem root_newline {t : RootNode} {sanitize : Bool} {out : String}
    {st' : List FootnoteRecord} (h : root t sanitize = .ok (out, st')) :
    out = "" ∨ endsWithNewline out = true := by
  simp only [root] at h
  split at h
  · exact absurd h (by simp)
  · rename_i vs st1 hall
    split at h
    · exact absurd h (by simp)
    · rename_i gen st2 hgen
      injection h with h
      injection h with h1 h2
      rcases generateFootnotes_newline hgen with hg | hg
      · subst hg
        rw [String.append_empty] at h1
        split at h1
        · exact Or.inl h1.symm
        · right
          rw [← h1]
          exact endsWithNewline_append_newline _
      · right
        rw [← h1]
        exact endsWithNewline_append_right _ _ hg

theorem cellsGo_congr (ctx : Context) (align : List (Option String)) (isHead : Bool) :
    ∀ (p : Nat) (cells cells' : List Node) (st : List FootnoteRecord),
    (∀ q, q < p → cells.get? q = cells'.get? q) →
    cellsGo ctx align isHead cells p st = cellsGo ctx align isHead cells' p st := by
  intro p
  induction p with
  | zero =>
    intro cells cells' st hq
    rw [cellsGo, cellsGo]
  | succ q ih =>
    intro cells cells' st hq
    rw [cellsGo_succ, cellsGo_succ]
    have hqq := hq q (by omega)
    cases hc : cells.get? q with
    | some cell =>
      have hc' : cells'.get? q = some cell := by rw [← hqq, hc]
      simp only [hc, hc']
      cases hall : all ctx (looseOf cell) none (childrenOf cell) st with
      | error e => rfl
      | ok pr =>
        obtain ⟨vs, st1⟩ := pr
        simp only [hall]
        rw [ih cells cells' st1 (fun j hj => hq j (by omega))]
    | none =>
      have hc' : cells'.get? q = none := by rw [← hqq, hc]
      simp only [hc, hc']
      rw [ih cells cells' st (fun j hj => hq j (by omega))]

theorem cellsGo_length (ctx : Context) (align : List (Option String)) (isHead : Bool)
    (cells : List Node) : ∀ (p : Nat) (st : List FootnoteRecord)
    (outs : List String) (st' : List FootnoteRecord),
    cellsGo ctx align isHead cells p st = .ok (outs, st') → outs.length = p := by
  intro p
  induction p with
  | zero =>
    intro st outs st' h
    rw [cellsGo] at h
    injection h with h
    injection h with h1 h2
    simp [← h1]
  | succ q ih =>
    intro st outs st' h
    rw [cellsGo_succ] at h
    split at h
    · rename_i cell heq
      split at h
      · exact absurd h (by simp)
      · rename_i vs st1 hall
        split at h
        · exact absurd h (by simp)
        · rename_i rest st2 hrest
          injection h with h
          injection h with h1 h2
          rw [← h1]
          simp [ih st1 rest st2 hrest]
    · rename_i heq
      split at h
      · exact absurd h (by simp)
      · rename_i rest st2 hrest
        injection h with h
        injection h with h1 h2
        rw [← h1]
        simp [ih st rest st2 hrest]

theorem cellsGo_spec (ctx : Context) (align : List (Option String)) (isHead : Bool)
    (cells : List Node) (st : List FootnoteRecord)
    (hs : svnList cells = true) (hk : (cells.all isTableCellNode) = true)
    (hf : fnFreeList cells = true) : ∀ p : Nat,
    cellsGo ctx align isHead cells p st =
      .ok ((List.range p).map fun j =>
        h (if isHead then "th" else "td") [("align", (align.get? j).getD none)]
          (match cells.get? j with
            | some cell =>
              match all ctx (looseOf cell) none (childrenOf cell) st with
              | .ok (vs, _) => String.intercalate "\n" vs
              | .error _ => ""
            | none => "") false, st) := by
  intro p
  induction p with
  | zero =>
    rw [cellsGo]
    simp
  | succ q ih =>
    rw [cellsGo_succ]
    cases hc : cells.get? q with
    | some cell =>
      have hmem := List.get?_mem hc
      have hsvn := svnList_mem hs hmem
      have hkc : isTableCellNode cell = true := by
        simp only [List.all_eq_true] at hk
        exact hk _ hmem
      obtain ⟨hsl, hrc⟩ := tableCell_sub hsvn hkc
      have hff : fnFreeList (childrenOf cell) = true := by
        have hfc : fnFree cell = true := by
          simp only [fnFreeList, List.all_eq_true] at hf
          exact hf _ hmem
        exact fnFree_children hfc
      have hc2 : cells[q]? = some cell := by
        rw [← List.get?_eq_getElem?]
        exact hc
      obtain ⟨vs, hall⟩ := @all_fnFree_fixed ctx (looseOf cell) (childrenOf cell) st
        hsl hrc hff
      simp only [hall, ih]
      rw [List.range_succ, List.map_append]
      simp [hc, hc2, hall]
    | none =>
      have hc2 : cells[q]? = none := by
        rw [← List.get?_eq_getElem?]
        exact hc
      simp only [ih]
      rw [List.range_succ, List.map_append]
      simp [hc, hc2]

theorem range_map_getD {α β : Type} : ∀ (l : List α) (g : α → β) (d : Nat → β),
    (List.range l.length).map (fun j => ((l.get? j).map g).getD (d j)) = l.map g := by
  intro l
  induction l with
  | nil => intro g d; simp
  | cons x xs ih =>
    intro g d
    rw [List.length_cons, List.range_succ_eq_map, List.map_cons, List.map_map]
    have h0 : (((x :: xs).get? 0).map g).getD (d 0) = g x := rfl
    rw [h0, List.map_cons]
    have hfun : ((fun j => (((x :: xs).get? j).map g).getD (d j)) ∘ Nat.succ) =
        fun j => ((xs.get? j).map g).getD (d (j + 1)) := by
      funext j
      rfl
    rw [hfun, ih g (fun j => d (j + 1))]

theorem rowsGo_spec (ctx : Context) (align : List (Option String)) (rows : List Node)
    (st : List FootnoteRecord) (hs : svnList rows = true)
    (hk : (rows.all isTableRowNode) = true) (hf : fnFreeList rows = true) :
    ∀ i : Nat,
    rowsGo ctx align rows i st =
      .ok ((List.range i).map fun j =>
        ((rows.get? j).map fun row =>
          tableSpecRow ctx align (decide (j = 0)) row st).getD
          (h "tr" [] (String.intercalate "\n" (emptyCells align (decide (j = 0)))) true),
        st) := by
  intro i
  induction i with
  | zero =>
    rw [rowsGo]
    simp
  | succ i' ih =>
    rw [rowsGo_succ]
    cases hrow : rows.get? i' with
    | some row =>
      have hmem := List.get?_mem hrow
      have hsvn := svnList_mem hs hmem
      have hkr : isTableRowNode row = true := by
        simp only [List.all_eq_true] at hk
        exact hk _ hmem
      obtain ⟨cells0, heqrow, hsl, hck⟩ := tableRow_sub hsvn hkr
      have hff : fnFreeList (childrenOf row) = true := by
        have hfr : fnFree row = true := by
          simp only [fnFreeList, List.all_eq_true] at hf
          exact hf _ hmem
        exact fnFree_children hfr
      have hcg := cellsGo_spec ctx align (decide (i' = 0)) (childrenOf row) st
        hsl hck hff align.length
      have hrow2 : rows[i']? = some row := by
        rw [← List.get?_eq_getElem?]
        exact hrow
      simp only [hcg, ih]
      rw [List.range_succ, List.map_append]
      simp only [List.map_cons, List.map_nil, hrow, hrow2, Option.map_some, Option.getD_some]
      simp only [tableSpecRow]
      rfl
    | none =>
      have hrow2 : rows[i']? = none := by
        rw [← List.get?_eq_getElem?]
        exact hrow
      simp only [ih]
      rw [List.range_succ, List.map_append]
      simp [hrow, hrow2]

theorem visit_table_spec (ctx : Context) (pl : Bool) (align : List (Option String))
    (rows : List Node) (st : List FootnoteRecord)
    (hs : svn (Node.table align rows) = true) (hf : fnFreeList rows = true) :
    visit ctx pl (.table align rows) st = .ok (tableSpecRender ctx align rows st, st) := by
  rw [svn_eq_local] at hs
  simp only [Bool.and_eq_true] at hs
  have hk : (rows.all isTableRowNode) = true := by
    have hh0 := hs.1
    simp only [localSvn, List.all_eq_true] at hh0
    simp only [List.all_eq_true]
    intro x hx
    have hh := hh0 x hx
    cases x <;> simp [isTableRowNode] at hh ⊢
  have hsl : svnList rows = true := by simpa [childrenOf] using hs.2
  have hrg := rowsGo_spec ctx align rows st hsl hk hf rows.length
  simp only [visit, hrg]
  cases rows with
  | nil => simp [tableSpecRender]
  | cons r rest =>
    rw [List.length_cons, List.range_succ_eq_map, List.map_cons, List.map_map]
    have hcomp : ((fun j => (((r :: rest).get? j).map fun row =>
        tableSpecRow ctx align (decide (j = 0)) row st).getD
          (h "tr" [] (String.intercalate "\n" (emptyCells align (decide (j = 0)))) true))
        ∘ Nat.succ) =
        fun j => ((rest.get? j).map fun row => tableSpecRow ctx align false row st).getD
          (h "tr" [] (String.intercalate "\n" (emptyCells align false)) true) := by
      funext j
      rfl
    rw [hcomp, range_map_getD rest _ _]
    simp [tableSpecRender]

/-! ### Single-step unfolding lemmas, for computing concrete compilations -/

theorem visit_text_eq (ctx : Context) (pl : Bool) (st : List FootnoteRecord)
    (v : String) : visit ctx pl (.text v) st = .ok (trimLines (encode v), st) := by
  simp only [visit]

theorem visit_html_eq (ctx : Context) (pl : Bool) (st : List FootnoteRecord)
    (v : String) :
    visit ctx pl (.html v) st = .ok (if ctx.sanitize then encode v else v, st) := by
  simp only [visit]

theorem visit_fndef_eq (ctx : Context) (pl : Bool) (st : List FootnoteRecord)
    (i : String) (cs : List Node) :
    visit ctx pl (.footnoteDefinition i cs) st = .ok ("", st) := by
  simp only [visit]

theorem visit_unknown_eq (ctx : Context) (pl : Bool) (st : List FootnoteRecord)
    (t : String) :
    visit ctx pl (.unknown t) st = .error ("Unsupported node: " ++ t) := by
  simp only [visit]

theorem visit_paragraph_ok {ctx : Context} {pl : Bool} {st : List FootnoteRecord}
    {cs : List Node} {vs : List String} {st' : List FootnoteRecord}
    (hall : all ctx false none cs st = .ok (vs, st')) :
    visit ctx pl (.paragraph cs) st =
      .ok (h "p" [] (trim (detab (String.join vs))) false, st') := by
  simp only [visit, hall]

theorem visit_link_ok {ctx : Context} {pl : Bool} {st : List FootnoteRecord}
    {href : String} {title : Option String} {attrs : List (String × String)}
    {cs : List Node} {vs : List String} {st' : List FootnoteRecord}
    (hall : all ctx false none cs st = .ok (vs, st')) :
    visit ctx pl (.link href title attrs cs) st =
      .ok (h "a" ([("href", some (normalizeURI href)), ("title", title)] ++
        nodeAttrs attrs) (String.join vs) false, st') := by
  simp only [visit, hall]

/-- The tight-unwrap branch of `listItem` (lines 352–356): taken whenever
the parent is not loose and the sole child's kind carries a `children`
field, however many entries that field has. -/
theorem listItem_unwrap (ctx : Context) (attrs : List (String × String)) (c : Node)
    (st : List FootnoteRecord) (hc : isContainer c = true) :
    visit ctx false (.listItem attrs [c]) st =
      match all ctx (looseOf c) none (childrenOf c) st with
      | .error e => .error e
      | .ok (vs, st') => .ok (h "li" (nodeAttrs attrs) (String.join vs) false, st') := by
  simp only [visit]
  rw [if_pos ⟨by simp, hc⟩]
  try rfl

/-- The block branch of a one-child `listItem` under a tight parent: taken
exactly when the sole child has no `children` field. -/
theorem listItem_block (ctx : Context) (attrs : List (String × String)) (c : Node)
    (st : List FootnoteRecord) (hc : isContainer c = false) :
    visit ctx false (.listItem attrs [c]) st =
      match all ctx false none [c] st with
      | .error e => .error e
      | .ok (vs, st') =>
        .ok (h "li" (nodeAttrs attrs) (String.intercalate "\n" vs) true, st') := by
  simp only [visit]
  rw [if_neg (by simp [hc])]
  try rfl

/-- A one-child `listItem` under a loose parent always takes the block
branch. -/
theorem listItem_loose (ctx : Context) (attrs : List (String × String)) (c : Node)
    (st : List FootnoteRecord) :
    visit ctx true (.listItem attrs [c]) st =
      match all ctx false none [c] st with
      | .error e => .error e
      | .ok (vs, st') =>
        .ok (h "li" (nodeAttrs attrs) (String.intercalate "\n" vs) true, st') := by
  simp only [visit]
  rw [if_neg (by simp)]
  try rfl

/-- A `listItem` with two or more children always takes the block branch. -/
theorem listItem_multi (ctx : Context) (pl : Bool) (attrs : List (String × String))
    (c1 c2 : Node) (rest : List Node) (st : List FootnoteRecord) :
    visit ctx pl (.listItem attrs (c1 :: c2 :: rest)) st =
      match all ctx false none (c1 :: c2 :: rest) st with
      | .error e => .error e
      | .ok (vs, st') =>
        .ok (h "li" (nodeAttrs attrs) (String.intercalate "\n" vs) true, st') := by
  simp only [visit]
  try rfl

theorem all_nil_eq (ctx : Context) (pl : Bool) (prev : Option Node)
    (st : List FootnoteRecord) : all ctx pl prev [] st = .ok ([], st) := by
  simp only [all]

theorem all_cons_ok {ctx : Context} {pl : Bool} {prev : Option Node} {n : Node}
    {rest : List Node} {st : List FootnoteRecord} {v : String}
    {st1 : List FootnoteRecord} {vs : List String} {st2 : List FootnoteRecord}
    (hv : visit ctx pl n st = .ok (v, st1))
    (hrest : all ctx pl (some n) rest st1 = .ok (vs, st2)) :
    all ctx pl prev (n :: rest) st =
      .ok (if v = "" then vs
        else if prevBreakish prev then trimLeft v :: vs else v :: vs, st2) := by
  simp only [all, hv, hrest]
  by_cases h1 : v = "" <;> by_cases h2 : prevBreakish prev = true <;>
    simp [h1, h2]

theorem all_cons_err {ctx : Context} {pl : Bool} {prev : Option Node} {n : Node}
    {rest : List Node} {st : List FootnoteRecord} {e : String}
    (hv : visit ctx pl n st = .error e) :
    all ctx pl prev (n :: rest) st = .error e := by
  simp only [all, hv]

theorem genItems_cons_ok {ctx : Context} {r : FootnoteRecord}
    {rest : List FootnoteRecord} {st : List FootnoteRecord} {item : String}
    {st1 : List FootnoteRecord} {items : List String} {st2 : List FootnoteRecord}
    (hv : visit ctx false (footnoteItem r) st = .ok (item, st1))
    (hrest : genItems ctx rest st1 = .ok (items, st2)) :
    genItems ctx (r :: rest) st = .ok (item :: items, st2) := by
  simp only [genItems, hv, hrest]

theorem generateFootnotes_cons_ok {ctx : Context} {r : FootnoteRecord}
    {rest : List FootnoteRecord} {results : List String}
    {st' : List FootnoteRecord}
    (hgen : genItems ctx (r :: rest) (r :: rest) = .ok (results, st')) :
    generateFootnotes ctx (r :: rest) =
      .ok (h "div" [("class", some "footnotes")]
        (h "hr" [] "" false ++ "\n" ++
          h "ol" [] (String.intercalate "\n" results) true) true ++ "\n", st') := by
  simp only [generateFootnotes, hgen]

theorem root_comp_ok (t : RootNode) (sanitize : Bool) {vs : List String}
    {st1 : List FootnoteRecord} {gen : String} {st2 : List FootnoteRecord}
    (hall : all ⟨collectedDefinitions t, sanitize⟩ false none t.children
      (collectedFootnotes t) = .ok (vs, st1))
    (hgen : generateFootnotes ⟨collectedDefinitions t, sanitize⟩ st1 = .ok (gen, st2)) :
    root t sanitize =
      .ok ((if String.intercalate "\n" vs = "" then ""
        else String.intercalate "\n" vs ++ "\n") ++ gen, st2) := by
  simp only [root, hall, hgen]

theorem root_comp_err (t : RootNode) (sanitize : Bool) {e : String}
    (hall : all ⟨collectedDefinitions t, sanitize⟩ false none t.children
      (collectedFootnotes t) = .error e) :
    root t sanitize = .error e := by
  simp only [root, hall]

/-! ### The claims -/

/-- Claim C1 (corrected): the data model's kind list and the dispatcher's
compiler table do not coincide — the documented kind `rule` has no
registered compiler (the table registers `horizontalRule` instead), so a
tree of documented kinds can still raise the Unsupported-Node error; what
the code does guarantee is that every structurally valid, dispatch-safe
tree (`svnRoot`) compiles without error. -/
theorem c1_documented_vs_registered_kinds :
    ("rule" ∈ documentedNodeKinds ∧ "rule" ∉ registeredCompilerKinds) ∧
    ∀ (t : RootNode) (sanitize : Bool), svnRoot t = true →
      ∃ out st', root t sanitize = .ok (out, st') :=
  ⟨⟨by decide, by decide⟩, root_success⟩

/-- A tree all of whose kinds are documented that the compiler rejects:
one node of kind `rule`. -/
theorem c1_rule_node_errors :
    (∀ k ∈ treeKinds ⟨[.unknown "rule"]⟩, k ∈ documentedNodeKinds) ∧
    root ⟨[.unknown "rule"]⟩ false = .error "Unsupported node: rule" :=
  ⟨by decide, root_comp_err ⟨[.unknown "rule"]⟩ false
    (all_cons_err (visit_unknown_eq _ _ _ _))⟩

/-- Witness for C1 at a concrete one-paragraph tree. -/
theorem c1_paragraph_tree_compiles :
    svnRoot ⟨[.paragraph [.text "hi"]]⟩ = true ∧
    ∃ out st', root ⟨[.paragraph [.text "hi"]]⟩ false = .ok (out, st') :=
  ⟨by decide, c1_documented_vs_registered_kinds.2 ⟨[.paragraph [.text "hi"]]⟩ false
    (by decide)⟩

/-- Claim C2 (corrected): with arbitrary identifiers the stored explicit
definitions can collide, so the final store need not have pairwise-distinct
identifiers; under the provisos that the tree is structurally valid, its
footnote content is well-placed (`goodRoot`), and the explicit definition
identifiers are distinct, the store ends with exactly N+M records (N the
inline `footnote` nodes of the tree, M the explicit definitions),
pairwise-distinct identifiers, and every inline allocation is the smallest
unused positive integer at its allocation point. -/
theorem c2_store_size_and_allocation (t : RootNode) (sanitize : Bool)
    (hs : svnRoot t = true) (hg : goodRoot t = true)
    (hnd : ((collectedFootnotes t).map (fun r => r.identifier)).Nodup) :
    ∃ out new,
      root t sanitize = .ok (out, collectedFootnotes t ++ new) ∧
      new.length = countFnList t.children ∧
      (collectedFootnotes t ++ new).length =
        countFnList t.children + (collectedFootnotes t).length ∧
      ((collectedFootnotes t ++ new).map (fun r => r.identifier)).Nodup ∧
      ∀ j (hj : j < new.length),
        smallestUnused
          ((collectedFootnotes t ++ new.take j).map (fun r => r.identifier))
          (new.get ⟨j, hj⟩).identifier := by
  obtain ⟨out, new, hroot, hstep⟩ := rootMaster t sanitize hs hg
  have hs0 := hs
  simp only [svnRoot, Bool.and_eq_true] at hs0
  have hgl : goodList t.children = true := by simpa [goodRoot, goodList] using hg
  have hcnt : new.length = countFnList t.children := by
    rw [hstep.1, fnCountList_eq_countFnList false t.children hs0.1 hgl hs0.2]
  refine ⟨out, new, hroot, hcnt, ?_, ?_, ?_⟩
  · simp [List.length_append, hcnt]
    omega
  · exact allocOk_nodup new hstep.2.1 hnd
  · exact allocOk_smallestUnused hstep.2.1

/-- Compilation of one stored record's list item in the duplicate-identifier
example: the appended back-reference anchor is the item's sole child, so the
tight-unwrap path renders the anchor's text directly. -/
theorem c2ce_item (st : List FootnoteRecord) :
    visit ⟨[], false⟩ false (footnoteItem ⟨"x", []⟩) st =
      .ok ("<li id=\"fn-x\">↩</li>", st) := by
  have h1 : footnoteItem ⟨"x", []⟩ = .listItem [("id", "fn-x")]
      [.link "#fnref-x" none [("class", "footnote-backref")] [.text "↩"]] := rfl
  rw [h1, listItem_unwrap _ _ _ _
    (rfl : isContainer (.link "#fnref-x" none [("class", "footnote-backref")]
      [.text "↩"]) = true)]
  have h2 : all ⟨[], false⟩ false none [Node.text "↩"] st = .ok (["↩"], st) := by
    rw [all_cons_ok (visit_text_eq _ _ _ _) (all_nil_eq _ _ _ _)]
    rfl
  have h3 : childrenOf (.link "#fnref-x" none [("class", "footnote-backref")]
      [.text "↩"]) = [Node.text "↩"] := rfl
  have h4 : looseOf (.link "#fnref-x" none [("class", "footnote-backref")]
      [.text "↩"]) = false := rfl
  rw [h3, h4, h2]
  rfl

/-- Two explicit footnote definitions sharing the identifier `x`: the
compiler stores both records unchanged, so the final store has repeated
identifiers, against C2's unconditional wording. -/
theorem c2_duplicate_definition_identifiers :
    root ⟨[.footnoteDefinition "x" [], .footnoteDefinition "x" []]⟩ false =
      .ok ("<div class=\"footnotes\">\n<hr>\n<ol>\n<li id=\"fn-x\">↩</li>\n<li id=\"fn-x\">↩</li>\n</ol>\n</div>\n",
        [⟨"x", []⟩, ⟨"x", []⟩]) ∧
    ¬ (([⟨"x", []⟩, ⟨"x", []⟩] : List FootnoteRecord).map
        (fun r => r.identifier)).Nodup := by
  refine ⟨?_, by decide⟩
  have hall : all ⟨[], false⟩ false none
      [.footnoteDefinition "x" [], .footnoteDefinition "x" []]
      [⟨"x", []⟩, ⟨"x", []⟩] = .ok ([], [⟨"x", []⟩, ⟨"x", []⟩]) := by
    rw [all_cons_ok (visit_fndef_eq _ _ _ _ _)
      (all_cons_ok (visit_fndef_eq _ _ _ _ _) (all_nil_eq _ _ _ _))]
    rfl
  have hgen : generateFootnotes ⟨[], false⟩ [⟨"x", []⟩, ⟨"x", []⟩] =
      .ok ("<div class=\"footnotes\">\n<hr>\n<ol>\n<li id=\"fn-x\">↩</li>\n<li id=\"fn-x\">↩</li>\n</ol>\n</div>\n",
        [⟨"x", []⟩, ⟨"x", []⟩]) := by
    have hg1 : genItems ⟨[], false⟩ [⟨"x", []⟩, ⟨"x", []⟩] [⟨"x", []⟩, ⟨"x", []⟩] =
        .ok (["<li id=\"fn-x\">↩</li>", "<li id=\"fn-x\">↩</li>"],
          [⟨"x", []⟩, ⟨"x", []⟩]) :=
      genItems_cons_ok (c2ce_item _) (genItems_cons_ok (c2ce_item _) rfl)
    rw [generateFootnotes_cons_ok hg1]
    rfl
  rw [root_comp_ok ⟨[.footnoteDefinition "x" [], .footnoteDefinition "x" []]⟩ false
    hall hgen]
  rfl

/-- Witness for C2 at a tree with one inline footnote and one explicit
definition. -/
theorem c2_small_tree_store :
    svnRoot ⟨[.paragraph [.footnote [.text "note"]], .footnoteDefinition "7" []]⟩ = true ∧
    goodRoot ⟨[.paragraph [.footnote [.text "note"]], .footnoteDefinition "7" []]⟩ = true ∧
    ((collectedFootnotes ⟨[.paragraph [.footnote [.text "note"]],
      .footnoteDefinition "7" []]⟩).map (fun r => r.identifier)).Nodup ∧
    ∃ out new,
      root ⟨[.paragraph [.footnote [.text "note"]], .footnoteDefinition "7" []]⟩ false =
        .ok (out, collectedFootnotes ⟨[.paragraph [.footnote [.text "note"]],
          .footnoteDefinition "7" []]⟩ ++ new) ∧
      new.length = countFnList [.paragraph [.footnote [.text "note"]],
        .footnoteDefinition "7" []] ∧
      (collectedFootnotes ⟨[.paragraph [.footnote [.text "note"]],
          .footnoteDefinition "7" []]⟩ ++ new).length =
        countFnList [.paragraph [.footnote [.text "note"]], .footnoteDefinition "7" []] +
        (collectedFootnotes ⟨[.paragraph [.footnote [.text "note"]],
          .footnoteDefinition "7" []]⟩).length ∧
      ((collectedFootnotes ⟨[.paragraph [.footnote [.text "note"]],
        .footnoteDefinition "7" []]⟩ ++ new).map (fun r => r.identifier)).Nodup ∧
      ∀ j (hj : j < new.length),
        smallestUnused ((collectedFootnotes ⟨[.paragraph [.footnote [.text "note"]],
          .footnoteDefinition "7" []]⟩ ++ new.take j).map (fun r => r.identifier))
          (new.get ⟨j, hj⟩).identifier :=
  ⟨by decide, by decide, by decide,
    c2_store_size_and_allocation ⟨[.paragraph [.footnote [.text "note"]],
      .footnoteDefinition "7" []]⟩ false (by decide) (by decide) (by decide)⟩

/-- Claim C3 (corrected): the `text` compiler HTML-escapes and then strips
blanks only at line boundaries (`trimLines`); it does not collapse internal
whitespace runs. -/
theorem c3_text_escape_and_line_trim (ctx : Context) (pl : Bool)
    (st : List FootnoteRecord) (v : String) :
    visit ctx pl (.text v) st = .ok (trimLines (encode v), st) := by
  simp only [visit]

/-- A text value with an internal double space: the compiled value keeps
both spaces, against C3's claimed run collapsing. -/
theorem c3_double_space_kept :
    visit ⟨[], false⟩ false (.text "a  b") [] = .ok ("a  b", []) ∧
    ("a  b" : String) ≠ "a b" := by
  refine ⟨?_, by decide⟩
  rw [visit_text_eq]
  rfl

/-- Claim C4 (corrected): the unwrap condition tests whether the sole
child's kind carries a `children` field at all (JavaScript truthiness of
`node.children[0].children`, true even for an empty array), not whether
that child sequence is non-empty; the unwrap fires iff the parent is tight
and the sole child is of a container kind. -/
theorem c4_tight_unwrap_condition (ctx : Context) (attrs : List (String × String))
    (c : Node) (st : List FootnoteRecord) :
    (isContainer c = true →
      visit ctx false (.listItem attrs [c]) st =
        match all ctx (looseOf c) none (childrenOf c) st with
        | .error e => .error e
        | .ok (vs, st') =>
          .ok (h "li" (nodeAttrs attrs) (String.join vs) false, st')) ∧
    (isContainer c = false →
      visit ctx false (.listItem attrs [c]) st =
        match all ctx false none [c] st with
        | .error e => .error e
        | .ok (vs, st') =>
          .ok (h "li" (nodeAttrs attrs) (String.intercalate "\n" vs) true, st')) ∧
    (visit ctx true (.listItem attrs [c]) st =
      match all ctx false none [c] st with
      | .error e => .error e
      | .ok (vs, st') =>
        .ok (h "li" (nodeAttrs attrs) (String.intercalate "\n" vs) true, st')) :=
  ⟨fun hc => listItem_unwrap ctx attrs c st hc,
   fun hc => listItem_block ctx attrs c st hc,
   listItem_loose ctx attrs c st⟩

/-- A tight item whose sole child is a paragraph with an empty child
sequence: the code still unwraps (rendering `<li></li>`) where C4's
wording demands the block path (`<li>\n<p></p>\n</li>`). -/
theorem c4_empty_paragraph_still_unwraps :
    visit ⟨[], false⟩ false (.listItem [] [.paragraph []]) [] =
      .ok ("<li></li>", []) ∧
    h "li" (nodeAttrs []) (String.intercalate "\n" ["<p></p>"]) true =
      "<li>\n<p></p>\n</li>" ∧
    ("<li></li>" : String) ≠ "<li>\n<p></p>\n</li>" := by
  refine ⟨?_, rfl, by decide⟩
  rw [listItem_unwrap _ _ _ _ (rfl : isContainer (.paragraph []) = true)]
  have h3 : childrenOf (Node.paragraph []) = [] := rfl
  have h4 : looseOf (Node.paragraph []) = false := rfl
  rw [h3, h4, all_nil_eq]
  rfl

/-- Witness for C4: the sole-paragraph item of the spec's own example,
unwrapped to `<li>foo</li>` under a tight parent. -/
theorem c4_tight_foo_item :
    isContainer (.paragraph [.text "foo"]) = true ∧
    visit ⟨[], false⟩ false (.listItem [] [.paragraph [.text "foo"]]) [] =
      .ok ("<li>foo</li>", []) := by
  refine ⟨by decide, ?_⟩
  rw [(c4_tight_unwrap_condition ⟨[], false⟩ [] (.paragraph [.text "foo"]) []).1
    (by decide)]
  have h2 : all ⟨[], false⟩ false none [Node.text "foo"] [] = .ok (["foo"], []) := by
    rw [all_cons_ok (visit_text_eq _ _ _ _) (all_nil_eq _ _ _ _)]
    rfl
  have h3 : childrenOf (Node.paragraph [.text "foo"]) = [Node.text "foo"] := rfl
  have h4 : looseOf (Node.paragraph [.text "foo"]) = false := rfl
  rw [h3, h4, h2]
  rfl

/-- Claim C5 (confirmed): the definition index built by the `root` pre-pass
equals the spec-side last-among-matches lookup under the upper-cased key,
and reference resolution is case-insensitive in the identifier. -/
theorem c5_index_last_wins_case_insensitive :
    (∀ (ds : List Definition) (k : String), buildIndex ds k = resolveSpec ds k) ∧
    (∀ (ds : List Definition) (sanitize : Bool) (i j : String),
      i.toUpper = j.toUpper →
      findDefinition ⟨ds, sanitize⟩ i = findDefinition ⟨ds, sanitize⟩ j) := by
  refine ⟨buildIndex_eq_resolveSpec, ?_⟩
  intro ds sanitize i j hij
  simp [findDefinition, hij]

/-- Witness for C5: the index agreement at a concrete two-definition list
whose identifiers collide up to case, and resolution invariance under a
reflexive key. -/
theorem c5_foo_resolution :
    (("Foo" : String).toUpper = ("Foo" : String).toUpper) ∧
    findDefinition ⟨[⟨"foo", "/u", none⟩], false⟩ "Foo" =
      findDefinition ⟨[⟨"foo", "/u", none⟩], false⟩ "Foo" ∧
    buildIndex [⟨"foo", "/u", none⟩, ⟨"FOO", "/v", none⟩] "FOO" =
      resolveSpec [⟨"foo", "/u", none⟩, ⟨"FOO", "/v", none⟩] "FOO" :=
  ⟨rfl, c5_index_last_wins_case_insensitive.2 _ false "Foo" "Foo" rfl,
   c5_index_last_wins_case_insensitive.1 _ _⟩

/-- Claim C6 (corrected): a non-empty compiled output always ends in a
newline, but not necessarily in exactly one — a verbatim `html` value with
its own trailing newline makes the output end in two. -/
theorem c6_nonempty_output_ends_in_newline {t : RootNode} {sanitize : Bool}
    {out : String} {st' : List FootnoteRecord}
    (hr : root t sanitize = .ok (out, st')) (hne : out ≠ "") :
    endsWithNewline out = true := by
  rcases root_newline hr with h0 | h0
  · exact absurd h0 hne
  · exact h0

/-- A tree holding one verbatim html node ending in a newline: the
compiled output ends in two newline characters, against C6's "exactly
one". -/
theorem c6_html_two_trailing_newlines :
    root ⟨[.html "x\n"]⟩ false = .ok ("x\n\n", []) ∧
    endsWithTwoNewlines "x\n\n" = true := by
  refine ⟨?_, by decide⟩
  have hall : all ⟨[], false⟩ false none [.html "x\n"] [] = .ok (["x\n"], []) := by
    rw [all_cons_ok (visit_html_eq _ _ _ _) (all_nil_eq _ _ _ _)]
    rfl
  rw [root_comp_ok ⟨[.html "x\n"]⟩ false hall rfl]
  rfl

/-- Witness for C6 at a one-text-node tree whose output is `hi\n`. -/
theorem c6_text_tree_newline :
    root ⟨[.text "hi"]⟩ false = .ok ("hi\n", []) ∧ ("hi\n" : String) ≠ "" ∧
    endsWithNewline "hi\n" = true := by
  have hall : all ⟨[], false⟩ false none [.text "hi"] [] = .ok (["hi"], []) := by
    rw [all_cons_ok (visit_text_eq _ _ _ _) (all_nil_eq _ _ _ _)]
    rfl
  have hr : root ⟨[.text "hi"]⟩ false = .ok ("hi\n", []) := by
    rw [root_comp_ok ⟨[.text "hi"]⟩ false hall rfl]
    rfl
  exact ⟨hr, by decide, c6_nonempty_output_ends_in_newline hr (by decide)⟩

/-- Claim C7 (corrected): the failsafe is keyed on the resolved
definition's `link` being falsy (`!definition.link`), not on no definition
resolving — a definition that resolves with an empty link string also
sends a shortcut reference down the literal-bracket path; in every other
case the anchor/image is built from `defLink`/`defTitle` of the (possibly
missing) resolution. -/
theorem c7_failsafe_on_empty_link (ctx : Context) (pl : Bool) (i rt alt : String)
    (cs : List Node) (st : List FootnoteRecord) :
    (rt = "shortcut" ∧ defLink (findDefinition ctx i) = "" →
      (visit ctx pl (.linkReference i rt cs) st =
        match all ctx false none cs st with
        | .error e => .error e
        | .ok (vs, st') => .ok ("[" ++ String.join vs ++ "]", st')) ∧
      visit ctx pl (.imageReference i rt alt) st = .ok ("![" ++ alt ++ "]", st)) ∧
    (¬(rt = "shortcut" ∧ defLink (findDefinition ctx i) = "") →
      (visit ctx pl (.linkReference i rt cs) st =
        match all ctx false none cs st with
        | .error e => .error e
        | .ok (vs, st') =>
          .ok (h "a" [("href", some (normalizeURI (defLink (findDefinition ctx i)))),
            ("title", defTitle (findDefinition ctx i))] (String.join vs) false, st')) ∧
      visit ctx pl (.imageReference i rt alt) st =
        .ok (h "img" [("src", some (normalizeURI (defLink (findDefinition ctx i)))),
          ("alt", some alt), ("title", defTitle (findDefinition ctx i))] "" false,
          st)) := by
  constructor
  · intro hcond
    constructor
    · simp only [visit]
      rw [if_pos hcond]
      try rfl
    · simp only [visit]
      rw [if_pos hcond]
  · intro hcond
    constructor
    · simp only [visit]
      rw [if_neg hcond]
      try rfl
    · simp only [visit]
      rw [if_neg hcond]

/-- A definition that resolves but carries an empty link: the shortcut
link reference takes the literal-bracket failsafe although a definition
resolved, against C7's wording. -/
theorem c7_empty_link_definition_failsafe :
    findDefinition ⟨[⟨"a", "", none⟩], false⟩ "a" = some ⟨"a", "", none⟩ ∧
    visit ⟨[⟨"a", "", none⟩], false⟩ false
      (.linkReference "a" "shortcut" [.text "lbl"]) [] = .ok ("[lbl]", []) := by
  have hfd : findDefinition ⟨[⟨"a", "", none⟩], false⟩ "a" =
      some ⟨"a", "", none⟩ := by
    simp [findDefinition, buildIndex]
  refine ⟨hfd, ?_⟩
  simp only [visit]
  rw [if_pos ⟨trivial, by rw [hfd]; rfl⟩]
  have h2 : all ⟨[⟨"a", "", none⟩], false⟩ false none [Node.text "lbl"] [] =
      .ok (["lbl"], []) := by
    rw [all_cons_ok (visit_text_eq _ _ _ _) (all_nil_eq _ _ _ _)]
    rfl
  rw [h2]
  rfl

/-- Witness for C7: with no definitions at all, a shortcut image reference
compiles to its literal bracketed form. -/
theorem c7_missing_definition_shortcut :
    (("shortcut" : String) = "shortcut" ∧
      defLink (findDefinition ⟨[], false⟩ "a") = "") ∧
    visit ⟨[], false⟩ false (.imageReference "a" "shortcut" "lbl") [] =
      .ok ("![lbl]", []) := by
  have hcond : ("shortcut" : String) = "shortcut" ∧
      defLink (findDefinition ⟨[], false⟩ "a") = "" := ⟨rfl, rfl⟩
  exact ⟨hcond,
    ((c7_failsafe_on_empty_link ⟨[], false⟩ false "a" "shortcut" "lbl" [] []).1
      hcond).2⟩

/-- Claim C8 (confirmed): on a structurally valid table whose rows are
footnote-free, the compiled output is exactly the spec-side forward
rendering — document row order, row 0 as header cells in the head section,
remaining rows as data cells in the body section, one cell per alignment
index, missing cells rendered empty with their column's alignment. -/
theorem c8_table_document_order (ctx : Context) (pl : Bool)
    (align : List (Option String)) (rows : List Node) (st : List FootnoteRecord)
    (hs : svn (.table align rows) = true) (hf : fnFreeList rows = true) :
    visit ctx pl (.table align rows) st =
      .ok (tableSpecRender ctx align rows st, st) :=
  visit_table_spec ctx pl align rows st hs hf

/-- Witness for C8: a two-column table with a full header row and a short
data row, compiled to head/body sections in document order with the short
row's missing cell rendered empty. -/
theorem c8_concrete_table :
    svn (.table [none, some "left"]
      [.tableRow [.tableCell [.text "a"], .tableCell [.text "b"]],
       .tableRow [.tableCell [.text "c"]]]) = true ∧
    fnFreeList [Node.tableRow [.tableCell [.text "a"], .tableCell [.text "b"]],
       .tableRow [.tableCell [.text "c"]]] = true ∧
    visit ⟨[], false⟩ false (.table [none, some "left"]
      [.tableRow [.tableCell [.text "a"], .tableCell [.text "b"]],
       .tableRow [.tableCell [.text "c"]]]) [] =
      .ok ("<table>\n<thead>\n<tr>\n<th>a</th>\n<th align=\"left\">b</th>\n</tr>\n</thead>\n<tbody>\n<tr>\n<td>c</td>\n<td align=\"left\"></td>\n</tr>\n</tbody>\n</table>",
        []) := by
  refine ⟨by decide, by decide, ?_⟩
  rw [c8_table_document_order ⟨[], false⟩ false [none, some "left"]
    [.tableRow [.tableCell [.text "a"], .tableCell [.text "b"]],
     .tableRow [.tableCell [.text "c"]]] [] (by decide) (by decide)]
  have ea : all ⟨[], false⟩ false none [Node.text "a"] [] = .ok (["a"], []) := by
    rw [all_cons_ok (visit_text_eq _ _ _ _) (all_nil_eq _ _ _ _)]
    rfl
  have eb : all ⟨[], false⟩ false none [Node.text "b"] [] = .ok (["b"], []) := by
    rw [all_cons_ok (visit_text_eq _ _ _ _) (all_nil_eq _ _ _ _)]
    rfl
  have ec : all ⟨[], false⟩ false none [Node.text "c"] [] = .ok (["c"], []) := by
    rw [all_cons_ok (visit_text_eq _ _ _ _) (all_nil_eq _ _ _ _)]
    rfl
  have hr2 : List.range 2 = [0, 1] := rfl
  norm_num [tableSpecRender, tableSpecRow, childrenOf, looseOf, hr2, ea, eb, ec]
  rfl

/-- Claim C9 (confirmed): the cell loop reads positions `0..align.length`
only, so cells beyond the alignment list never influence the output, and a
compiled row always holds exactly one rendered cell per alignment
entry. -/
theorem c9_cells_beyond_align_dropped (ctx : Context) (align : List (Option String))
    (isHead : Bool) :
    (∀ (cells extra : List Node) (st : List FootnoteRecord),
      align.length ≤ cells.length →
      cellsGo ctx align isHead (cells ++ extra) align.length st =
        cellsGo ctx align isHead cells align.length st) ∧
    (∀ (cells : List Node) (p : Nat) (st : List FootnoteRecord)
      (outs : List String) (st' : List FootnoteRecord),
      cellsGo ctx align isHead cells p st = .ok (outs, st') →
      outs.length = p) := by
  constructor
  · intro cells extra st hlen
    refine cellsGo_congr ctx align isHead align.length (cells ++ extra) cells st ?_
    intro q hq
    exact List.get?_append (by omega)
  · intro cells p st outs st' hcg
    exact cellsGo_length ctx align isHead cells p st outs st' hcg

/-- Witness for C9: a one-column row with one extra cell compiles the same
as without it. -/
theorem c9_one_column_extra_cell :
    ([none] : List (Option String)).length ≤
      ([Node.tableCell []] : List Node).length ∧
    cellsGo ⟨[], false⟩ [none] true
        ([Node.tableCell []] ++ [Node.tableCell [.text "z"]]) 1 [] =
      cellsGo ⟨[], false⟩ [none] true [Node.tableCell []] 1 [] :=
  ⟨by decide, (c9_cells_beyond_align_dropped ⟨[], false⟩ [none] true).1
    [Node.tableCell []] [Node.tableCell [.text "z"]] [] (by decide)⟩

/-- A record holding a single paragraph: its sole child is a container, yet
the generated item takes the block path, rendering an inner paragraph
element — against C10's claimed tight unwrap. -/
theorem c10_paragraph_record_blocked :
    visit ⟨[], false⟩ false (footnoteItem ⟨"1", [.paragraph [.text "x"]]⟩) [] =
      .ok ("<li id=\"fn-1\">\n<p>x</p>\n<a href=\"#fnref-1\" class=\"footnote-backref\">↩</a>\n</li>",
        []) ∧
    isContainer (.paragraph [.text "x"]) = true ∧
    h "li" (nodeAttrs [("id", "fn-1")]) (String.join ["x"]) false =
      "<li id=\"fn-1\">x</li>" ∧
    ("<li id=\"fn-1\">\n<p>x</p>\n<a href=\"#fnref-1\" class=\"footnote-backref\">↩</a>\n</li>" : String) ≠
      "<li id=\"fn-1\">x</li>" := by
  refine ⟨?_, by decide, rfl, by decide⟩
  have h1 : footnoteItem ⟨"1", [.paragraph [.text "x"]]⟩ =
      .listItem [("id", "fn-1")] [.paragraph [.text "x"],
        .link "#fnref-1" none [("class", "footnote-backref")] [.text "↩"]] := rfl
  have hax : all ⟨[], false⟩ false none [Node.text "x"] [] = .ok (["x"], []) := by
    rw [all_cons_ok (visit_text_eq _ _ _ _) (all_nil_eq _ _ _ _)]
    rfl
  have harrow : all ⟨[], false⟩ false none [Node.text "↩"]
      [] = .ok (["↩"], []) := by
    rw [all_cons_ok (visit_text_eq _ _ _ _) (all_nil_eq _ _ _ _)]
    rfl
  have hp : visit ⟨[], false⟩ false (.paragraph [.text "x"]) [] =
      .ok ("<p>x</p>", []) := by
    rw [visit_paragraph_ok hax]
    rfl
  have hl : visit ⟨[], false⟩ false
      (.link "#fnref-1" none [("class", "footnote-backref")] [.text "↩"]) [] =
      .ok ("<a href=\"#fnref-1\" class=\"footnote-backref\">↩</a>", []) := by
    rw [visit_link_ok harrow]
    rfl
  have hall2 : all ⟨[], false⟩ false none [Node.paragraph [.text "x"],
      .link "#fnref-1" none [("class", "footnote-backref")] [.text "↩"]] [] =
      .ok (["<p>x</p>", "<a href=\"#fnref-1\" class=\"footnote-backref\">↩</a>"],
        []) := by
    rw [all_cons_ok hp (all_cons_ok hl (all_nil_eq _ _ _ _))]
    rfl
  rw [h1, listItem_multi, hall2]
  rfl

/-- Claim C10 (corrected): the generator appends the back-reference anchor
to the record's children before compiling the list item, so a record with
at least one child always has two or more item children and takes the
block path — the tight-unwrap path fires only for a record with no
children at all, where it unwraps the back-reference anchor itself. -/
theorem c10_backref_defeats_unwrap (ctx : Context) (st : List FootnoteRecord)
    (r : FootnoteRecord) :
    (∀ c rest, r.children = c :: rest →
      ∀ vs st', all ctx false none ((c :: rest) ++
          [.link ("#fnref-" ++ r.identifier) none [("class", "footnote-backref")]
            [.text "↩"]]) st = .ok (vs, st') →
        visit ctx false (footnoteItem r) st =
          .ok (h "li" (nodeAttrs [("id", "fn-" ++ r.identifier)])
            (String.intercalate "\n" vs) true, st')) ∧
    (r.children = [] →
      ∀ vs st', all ctx false none [Node.text "↩"] st = .ok (vs, st') →
        visit ctx false (footnoteItem r) st =
          .ok (h "li" (nodeAttrs [("id", "fn-" ++ r.identifier)])
            (String.join vs) false, st')) := by
  constructor
  · intro c rest hr vs st' hall
    rw [footnoteItem, hr]
    cases rest with
    | nil =>
      rw [show ([c] : List Node) ++
          [.link ("#fnref-" ++ r.identifier) none [("class", "footnote-backref")]
            [.text "↩"]] =
          [c, .link ("#fnref-" ++ r.identifier) none [("class", "footnote-backref")]
            [.text "↩"]] from rfl] at hall ⊢
      rw [listItem_multi, hall]
    | cons c2 rest2 =>
      rw [show ((c :: c2 :: rest2) : List Node) ++
          [.link ("#fnref-" ++ r.identifier) none [("class", "footnote-backref")]
            [.text "↩"]] =
          c :: c2 :: (rest2 ++
            [.link ("#fnref-" ++ r.identifier) none [("class", "footnote-backref")]
              [.text "↩"]]) from by simp] at hall ⊢
      rw [listItem_multi, hall]
  · intro hr vs st' hall
    rw [footnoteItem, hr]
    rw [show (([] : List Node) ++
        [.link ("#fnref-" ++ r.identifier) none [("class", "footnote-backref")]
          [.text "↩"]]) =
        [.link ("#fnref-" ++ r.identifier) none [("class", "footnote-backref")]
          [.text "↩"]] from rfl]
    rw [listItem_unwrap _ _ _ _
      (rfl : isContainer (.link ("#fnref-" ++ r.identifier) none
        [("class", "footnote-backref")] [.text "↩"]) = true)]
    have hch : childrenOf (.link ("#fnref-" ++ r.identifier) none
        [("class", "footnote-backref")] [.text "↩"]) = [Node.text "↩"] := rfl
    have hlo : looseOf (.link ("#fnref-" ++ r.identifier) none
        [("class", "footnote-backref")] [.text "↩"]) = false := rfl
    rw [hch, hlo, hall]

/-- Witness for C10: a childless record's item, unwrapped around the
back-reference anchor alone. -/
theorem c10_empty_record_item :
    (⟨"1", []⟩ : FootnoteRecord).children = [] ∧
    visit ⟨[], false⟩ false (footnoteItem ⟨"1", []⟩) [] =
      .ok ("<li id=\"fn-1\">↩</li>", []) := by
  have hall : all ⟨[], false⟩ false none [Node.text "↩"] [] =
      .ok (["↩"], []) := by
    rw [all_cons_ok (visit_text_eq _ _ _ _) (all_nil_eq _ _ _ _)]
    rfl
  have hv := (c10_backref_defeats_unwrap ⟨[], false⟩ [] ⟨"1", []⟩).2 rfl
    ["↩"] [] hall
  refine ⟨rfl, ?_⟩
  rw [hv]
  rfl

end RH
